import Mathlib

/-
Verification of the rp66 "Visible Envelope" framing layer
(layered-file-protocols, src/rp66.cpp).

The rp66 layer owns a wrapped protocol (an abstract `lfp_protocol`) and
presents a logical byte stream with the 4-byte Visible Envelope headers
stripped.  The embedding below mirrors the C++ source:

  * `WProto S` models the virtual interface of the wrapped protocol
    (`readinto`, `seek`, `eof`), with state type `S`.
  * `Rp66 S` is the rp66 object state: the owned handle `fp`, the
    `markers` index of discovered headers, the cursor (`cur` is the
    index of the current record, mirroring the iterator, plus
    `remaining`).
  * Each C++ member function becomes a Lean function; loops take an
    explicit fuel argument and return `Outcome.timeout` on exhaustion
    (with enough fuel this never happens, as the theorems show).
  * C++ exceptions become `Outcome.err` with the error kind
    (exception message strings are elided).
  * `assert(...)` statements are debug-only in the source (compiled out
    in release builds, which is what the CI ships); they are modelled as
    no-ops, matching the release semantics of the C API.

The in-memory backend used to exercise the layer is modelled from the
spec (memfile.cpp is not among the given sources): see `Mem` below.
-/

namespace LFP

/-- Status codes of the wrapped protocol's `readinto`.  `LFP_OTHER`
stands for every `lfp_status` value other than `LFP_OK` and
`LFP_OKINCOMPLETE` (the `default:` case of the switch in
`rp66::read_header`). -/
inductive lfp_status where
  | LFP_OK
  | LFP_OKINCOMPLETE
  | LFP_OTHER
deriving DecidableEq, Repr

/-- Error kinds thrown by the rp66 layer (exception classes of the
source; message strings elided). -/
inductive lfp_error where
  | invalid_args
  | protocol_fatal
  | protocol_failed_recovery
  | not_implemented
  | runtime_error
deriving DecidableEq, Repr

/-- Result of an operation: normal return, thrown error, or fuel
exhaustion of the shallow embedding's loop counter. -/
inductive Outcome (α : Type) where
  | ok (a : α)
  | err (e : lfp_error)
  | timeout
deriving DecidableEq, Repr

/-- The wrapped protocol interface (the `lfp_protocol*` the rp66 layer
owns), as a deterministic state machine over states `S`:
`readinto s len = (s', bytes written to dst, n, status)`. -/
structure WProto (S : Type) where
  readinto : S → Int → S × List Nat × Int × lfp_status
  seek : S → Int → S
  eof : S → Bool

/-- The rp66 record header (`rp66::header`): the on-disk fields
`length` (uint16), `format` (byte), `major` (byte), and the derived
`lastbyte` (int64): cumulative logical offset of the record's last
byte, as if there were no Visible Envelopes. -/
structure header where
  length : Nat
  format : Nat
  major : Nat
  lastbyte : Int
deriving DecidableEq, Repr

instance : Inhabited header := ⟨⟨0, 0, 0, 0⟩⟩

/-- `header::size`: the actual number of bytes in a Visible Envelope. -/
def headerSize : Int := 4

/-- The rp66 layer state: owned wrapped handle `fp`, the `markers`
index, and the cursor (`cur` = index of the current record into
`markers`, `remaining` = unread logical bytes left in it). -/
structure Rp66 (S : Type) where
  fp : S
  markers : List header
  cur : Nat
  remaining : Int
deriving DecidableEq, Repr

/-- Little-endian decode of the 2-byte `length` field (the `memcpy`
into a `std::uint16_t`, after the big-endian byte swap if needed; the
`% 256` models that the buffer holds `unsigned char`s). -/
def decode_length (b : List Nat) : Nat :=
  b.getD 0 0 % 256 + 256 * (b.getD 1 0 % 256)

/-- The `lastbyte` of the previous index entry, or 0 for an empty
index (the `if (this->markers.size()) lastbyte += prev->lastbyte`
step of `rp66::read_header`). -/
def prevLast (l : List header) : Int :=
  match l.getLast? with
  | some prev => prev.lastbyte
  | none => 0

/-- `rp66::read_header()`: read exactly 4 physical bytes, decode them,
derive `lastbyte` from the previous index entry (or 0), append to the
index and point the cursor at the new entry with
`remaining = length - 4`.  On a short read, throw `protocol_fatal` at
physical end-of-stream and `protocol_failed_recovery` otherwise; any
other status code throws `not_implemented`.  (The source's
`assert(head.format == 0xFF)` and `assert(head.major == 1)` are
debug-only and compiled out in release builds: no validation happens
on the release path.) -/
def read_header {S : Type} (W : WProto S) (st : Rp66 S) : Outcome (Rp66 S) :=
  match W.readinto st.fp 4 with
  | (fp', b, _, .LFP_OK) =>
    let length := decode_length b
    let format := b.getD 2 0 % 256
    let major := b.getD 3 0 % 256
    let lastbyte : Int :=
      ((length : Int) - headerSize) + prevLast st.markers
    let head : header := ⟨length, format, major, lastbyte⟩
    let markers' := st.markers ++ [head]
    .ok ⟨fp', markers', markers'.length - 1, (length : Int) - headerSize⟩
  | (fp', _, _, .LFP_OKINCOMPLETE) =>
    if W.eof fp' then .err .protocol_fatal
    else .err .protocol_failed_recovery
  | (_, _, _, .LFP_OTHER) => .err .not_implemented

/-- `rp66::read_header(cursor)` (the caller always passes
`this->current`): if the record after the current one is not yet
indexed, fall through to full header discovery; otherwise (cache hit)
advance the cursor to the next index entry, recompute `remaining` from
the cached header, and reposition the wrapped protocol to
`rec * header::size + cur->lastbyte` where
`rec = distance(begin, next(current))` after the advance. -/
def read_header_cur {S : Type} (W : WProto S) (st : Rp66 S) : Outcome (Rp66 S) :=
  if st.cur + 1 = st.markers.length then
    read_header W st
  else
    let newcur := st.cur + 1
    let recn : Int := (newcur : Int) + 1
    let toff := recn * headerSize + (st.markers.getD st.cur default).lastbyte
    let fp' := W.seek st.fp toff
    .ok ⟨fp', st.markers, newcur,
      ((st.markers.getD newcur default).length : Int) - headerSize⟩

/-- The private `rp66::readinto(void*, int64)` loop, with explicit
fuel.  `acc` accumulates the bytes written to `dst` and `nread` the
`bytes_read` counter.  Mirrors the source line by line: return at
physical EOF; advance/discover a header when `remaining == 0`; else
read `min len remaining` physical bytes, and return on
`LFP_OKINCOMPLETE` or when the request is satisfied (the release build
performs no check between those two tests). -/
def readinto_loop {S : Type} (W : WProto S) :
    Nat → Rp66 S → Int → List Nat → Int → Outcome (Rp66 S × List Nat × Int)
  | 0, _, _, _, _ => .timeout
  | fuel+1, st, len, acc, nread =>
    if W.eof st.fp then .ok (st, acc, nread)
    else if st.remaining = 0 then
      match read_header_cur W st with
      | .ok st' => readinto_loop W fuel st' len acc nread
      | .err e => .err e
      | .timeout => .timeout
    else
      match W.readinto st.fp (min len st.remaining) with
      | (fp', b, n, errc) =>
        let st' : Rp66 S := ⟨fp', st.markers, st.cur, st.remaining - n⟩
        let acc' := acc ++ b
        let nread' := nread + n
        if errc = .LFP_OKINCOMPLETE then .ok (st', acc', nread')
        else if n = len then .ok (st', acc', nread')
        else readinto_loop W fuel st' (len - n) acc' nread'

/-- The public `rp66::readinto(dst, len, bytes_read)`: reject
`len > uint32 max` with `invalid_args` before anything else, run the
private loop, and report `LFP_OKINCOMPLETE` exactly when fewer than
`len` bytes were produced. -/
def rp66_readinto {S : Type} (W : WProto S) (fuel : Nat) (st : Rp66 S)
    (len : Int) : Outcome (Rp66 S × List Nat × Int × lfp_status) :=
  if (4294967295 : Int) < len then .err .invalid_args
  else
    match readinto_loop W fuel st len [] 0 with
    | .ok (st', out, n) =>
      .ok (st', out, n, if n < len then .LFP_OKINCOMPLETE else .LFP_OK)
    | .err e => .err e
    | .timeout => .timeout

/-- `rp66::tell()`: `current->lastbyte - current.remaining`. -/
def rp66_tell {S : Type} (st : Rp66 S) : Int :=
  (st.markers.getD st.cur default).lastbyte - st.remaining

/-- `rp66::eof()`: delegated to the wrapped protocol. -/
def rp66_eof {S : Type} (W : WProto S) (st : Rp66 S) : Bool :=
  W.eof st.fp

/-- The scan of `rp66::seek_with_index`: the index (into `markers`) of
the first entry whose `lastbyte` is `≥ n` (the while loop starting at
`begin` with `records = 1`). -/
def scan_idx : List header → Int → Nat
  | [], _ => 0
  | h :: t, n => if h.lastbyte < n then scan_idx t n + 1 else 0

/-- `rp66::seek_with_index(n)`: scan the index for the containing
record, physically seek to `records * header::size + n`, and set
`remaining = current->lastbyte - n`. -/
def seek_with_index {S : Type} (W : WProto S) (st : Rp66 S) (n : Int) :
    Rp66 S :=
  let i := scan_idx st.markers n
  let records : Int := (i : Int) + 1
  let real_offset := records * headerSize + n
  ⟨W.seek st.fp real_offset, st.markers, i,
    (st.markers.getD i default).lastbyte - n⟩

/-- The forward-discovery loop of `rp66::seek`: seek the wrapped
protocol to `off`, read (and index) a header, advance `off` by the new
record's `length`, and stop once the new record's `lastbyte` reaches
the target `n`. -/
def seek_loop {S : Type} (W : WProto S) :
    Nat → Rp66 S → Int → Int → Outcome (Rp66 S × Int)
  | 0, _, _, _ => .timeout
  | fuel+1, st, n, off =>
    let st0 : Rp66 S := ⟨W.seek st.fp off, st.markers, st.cur, st.remaining⟩
    match read_header W st0 with
    | .ok st' =>
      let off' := off + ((st'.markers.getD st'.cur default).length : Int)
      if n ≤ (st'.markers.getD st'.cur default).lastbyte then .ok (st', off')
      else seek_loop W fuel st' n off'
    | .err e => .err e
    | .timeout => .timeout

/-- `rp66::seek(n)`: reject negative `n` with `invalid_args`; read a
header first if the index is empty; set the cursor to the last index
entry; take the indexed path when `n` is within the indexed range,
else follow headers forward with `seek_loop`, then back the physical
offset up by `remaining = current->lastbyte - n` and seek there. -/
def rp66_seek {S : Type} (W : WProto S) (fuel : Nat) (st : Rp66 S)
    (n : Int) : Outcome (Rp66 S) :=
  if n < 0 then .err .invalid_args
  else
    match (if st.markers.isEmpty then read_header W st else .ok st) with
    | .ok st1 =>
      let st2 : Rp66 S :=
        ⟨st1.fp, st1.markers, st1.markers.length - 1, st1.remaining⟩
      let lastb := (st2.markers.getD st2.cur default).lastbyte
      if n ≤ lastb then .ok (seek_with_index W st2 n)
      else
        let off := (st2.markers.length : Int) * headerSize + lastb
        match seek_loop W fuel st2 n off with
        | .ok (st3, off') =>
          let remaining := (st3.markers.getD st3.cur default).lastbyte - n
          .ok ⟨W.seek st3.fp (off' - remaining), st3.markers, st3.cur,
            remaining⟩
        | .err e => .err e
        | .timeout => .timeout
    | .err e => .err e
    | .timeout => .timeout

/-- `lfp_rp66_open`: null wrapped handle gives null; the constructor
eagerly reads the first header, and any exception during construction
is caught and turned into a null return. -/
def lfp_rp66_open {S : Type} (W : WProto S) (f : Option S) :
    Option (Rp66 S) :=
  match f with
  | none => none
  | some fp =>
    match read_header W ⟨fp, [], 0, 0⟩ with
    | .ok st => some st
    | .err _ => none
    | .timeout => none

/-- Modelled from the spec: the in-memory physical backend (the
sources given here do not include memfile.cpp).  Per the Protocol
Contract, `readinto` copies up to the requested length from the
current position, never more, reporting `LFP_OK` exactly when the full
request was satisfied; `seek` repositions; `eof` is true once the
stream is exhausted. -/
structure Mem where
  data : List Nat
  pos : Nat
deriving DecidableEq, Repr

/-- Modelled from the spec: memfile `readinto`. -/
def Mem.readinto (m : Mem) (len : Int) : Mem × List Nat × Int × lfp_status :=
  let avail : Int := (m.data.length : Int) - (m.pos : Int)
  let n : Int := max 0 (min len avail)
  (⟨m.data, m.pos + n.toNat⟩, (m.data.drop m.pos).take n.toNat, n,
    if n = len then .LFP_OK else .LFP_OKINCOMPLETE)

/-- Modelled from the spec: memfile `seek`. -/
def Mem.seek (m : Mem) (off : Int) : Mem := ⟨m.data, off.toNat⟩

/-- Modelled from the spec: memfile `eof`. -/
def Mem.eof (m : Mem) : Bool := m.data.length ≤ m.pos

/-- The memfile backend as a wrapped protocol. -/
def memP : WProto Mem := ⟨Mem.readinto, Mem.seek, Mem.eof⟩

/-- The memfile backend instrumented with a counter of physical
`readinto` calls (to observe which code paths touch the device). -/
def cmemP : WProto (Mem × Nat) :=
  ⟨fun s len =>
    match s.1.readinto len with
    | (m', b, n, e) => ((m', s.2 + 1), b, n, e),
   fun s off => (s.1.seek off, s.2),
   fun s => s.1.eof⟩

/-- One well-formed rp66 record framing the given payload: 4-byte
header (little-endian `length = payload + 4`, format 0xFF, major 1)
followed by the payload. -/
def mkRecord (payload : List Nat) : List Nat :=
  (payload.length + 4) % 256 :: (payload.length + 4) / 256 % 256 ::
    255 :: 1 :: payload

/-- A framed stream: the concatenation of one record per part. -/
def mkFile (parts : List (List Nat)) : List Nat :=
  (parts.map mkRecord).flatten

/-- Logical length of the first `k` records' payloads. -/
def preLen (parts : List (List Nat)) (k : Nat) : Nat :=
  ((parts.take k).map List.length).sum

/-- Total logical payload length of the framed stream. -/
def totLen (parts : List (List Nat)) : Nat :=
  (parts.map List.length).sum

/-- Well-formed partition: at least one record, and every record fits
the 16-bit length field. -/
def WFParts (parts : List (List Nat)) : Prop :=
  parts ≠ [] ∧ ∀ part ∈ parts, part.length + 4 ≤ 65535

instance : DecidablePred WFParts := fun parts => by
  unfold WFParts; infer_instance

/-- The header that discovery derives for record `i` of a well-formed
framed stream. -/
def headerAt (parts : List (List Nat)) (i : Nat) : header :=
  ⟨(parts.getD i []).length + 4, 255, 1, (preLen parts (i+1) : Int)⟩

/-- The index after the first `k` records have been discovered. -/
def expMarkers (parts : List (List Nat)) (k : Nat) : List header :=
  (List.range k).map (headerAt parts)

/-- Coupling invariant: the layer state `st` faithfully represents the
framed stream `mkFile parts` with `k` records indexed, the cursor on
record `cur`, at logical position `p`. -/
structure Good (parts : List (List Nat)) (k cur p : Nat) (st : Rp66 Mem) :
    Prop where
  hmk : st.markers = expMarkers parts k
  hcur : st.cur = cur
  hkN : k ≤ parts.length
  hck : cur < k
  hlo : preLen parts cur ≤ p
  hhi : p ≤ preLen parts (cur+1)
  hrem : st.remaining = (preLen parts (cur+1) : Int) - (p : Int)
  hdata : st.fp.data = mkFile parts
  hpos : st.fp.pos = 4*(cur+1) + p

/-! Basic facts about the framing layout. -/

theorem preLen_zero (parts : List (List Nat)) : preLen parts 0 = 0 := rfl

theorem preLen_succ (parts : List (List Nat)) (i : Nat) :
    preLen parts (i+1) = preLen parts i + (parts.getD i []).length := by
  induction parts generalizing i with
  | nil => simp [preLen]
  | cons a t ih =>
    cases i with
    | zero => simp [preLen]
    | succ j =>
      simp only [preLen, List.take_succ_cons, List.map_cons, List.sum_cons,
        List.getD_cons_succ] at *
      rw [ih]
      omega

theorem preLen_mono (parts : List (List Nat)) {k k' : Nat} (h : k ≤ k') :
    preLen parts k ≤ preLen parts k' := by
  induction k' with
  | zero =>
    have : k = 0 := by omega
    simp [this]
  | succ j ih =>
    rcases Nat.lt_or_ge k (j+1) with h' | h'
    · have := ih (by omega)
      rw [preLen_succ]
      omega
    · have : k = j+1 := by omega
      simp [this]

theorem preLen_of_ge (parts : List (List Nat)) {k : Nat}
    (h : parts.length ≤ k) : preLen parts k = totLen parts := by
  unfold preLen totLen
  rw [List.take_of_length_le h]

theorem preLen_le_tot (parts : List (List Nat)) (k : Nat) :
    preLen parts k ≤ totLen parts := by
  rcases Nat.le_total k parts.length with h | h
  · calc preLen parts k ≤ preLen parts parts.length := preLen_mono parts h
    _ = totLen parts := preLen_of_ge parts le_rfl
  · exact (preLen_of_ge parts h).le

theorem mkRecord_length (x : List Nat) : (mkRecord x).length = x.length + 4 := by
  simp [mkRecord]

theorem mkFile_cons (a : List Nat) (t : List (List Nat)) :
    mkFile (a :: t) = mkRecord a ++ mkFile t := by
  simp [mkFile]

theorem totLen_cons (a : List Nat) (t : List (List Nat)) :
    totLen (a :: t) = a.length + totLen t := by
  simp [totLen]

theorem mkFile_length (parts : List (List Nat)) :
    (mkFile parts).length = 4 * parts.length + totLen parts := by
  induction parts with
  | nil => simp [mkFile, totLen]
  | cons a t ih =>
    rw [mkFile_cons, List.length_append, ih, mkRecord_length, totLen_cons]
    simp
    omega

theorem flatten_length (parts : List (List Nat)) :
    parts.flatten.length = totLen parts := by
  rw [List.length_flatten]
  rfl

theorem mkFile_drop (parts : List (List Nat)) (k : Nat)
    (hk : k < parts.length) :
    (mkFile parts).drop (4*k + preLen parts k) =
      mkRecord (parts.getD k []) ++ mkFile (parts.drop (k+1)) := by
  induction parts generalizing k with
  | nil => simp at hk
  | cons a t ih =>
    cases k with
    | zero => simp [preLen, mkFile_cons]
    | succ j =>
      have h1 : preLen (a :: t) (j+1) = a.length + preLen t j := by
        simp [preLen, List.take_succ_cons]
      have h2 : 4*(j+1) + preLen (a :: t) (j+1) =
          (mkRecord a).length + (4*j + preLen t j) := by
        rw [h1, mkRecord_length]; omega
      rw [mkFile_cons, h2, List.drop_append, List.getD_cons_succ,
        List.drop_succ_cons]
      exact ih j (by simpa using hk)

theorem flatten_drop (parts : List (List Nat)) (k : Nat)
    (hk : k < parts.length) :
    parts.flatten.drop (preLen parts k) =
      parts.getD k [] ++ (parts.drop (k+1)).flatten := by
  induction parts generalizing k with
  | nil => simp at hk
  | cons a t ih =>
    cases k with
    | zero => simp [preLen]
    | succ j =>
      have h1 : preLen (a :: t) (j+1) = a.length + preLen t j := by
        simp [preLen, List.take_succ_cons]
      rw [h1, List.flatten_cons, ← List.drop_drop, List.drop_left,
        List.getD_cons_succ, List.drop_succ_cons]
      exact ih j (by simpa using hk)

theorem window_eq (parts : List (List Nat)) (cur p t : Nat)
    (hc : cur < parts.length) (hlo : preLen parts cur ≤ p)
    (hhi : p ≤ preLen parts (cur+1)) (ht : t ≤ preLen parts (cur+1) - p) :
    ((mkFile parts).drop (4*(cur+1) + p)).take t =
      (parts.flatten.drop p).take t := by
  have hps := preLen_succ parts cur
  have hq : p - preLen parts cur ≤ (parts.getD cur []).length := by omega
  have h1 : (mkFile parts).drop (4*(cur+1) + p) =
      (parts.getD cur []).drop (p - preLen parts cur) ++
        mkFile (parts.drop (cur+1)) := by
    have e1 : 4*(cur+1) + p =
        (4*cur + preLen parts cur) + (4 + (p - preLen parts cur)) := by omega
    rw [e1, ← List.drop_drop, mkFile_drop parts cur hc, mkRecord,
      List.cons_append, List.cons_append, List.cons_append, List.cons_append,
      show 4 + (p - preLen parts cur) = p - preLen parts cur + 1 + 1 + 1 + 1
        from by omega,
      List.drop_succ_cons, List.drop_succ_cons, List.drop_succ_cons,
      List.drop_succ_cons]
    exact List.drop_append_of_le_length hq
  have h2 : parts.flatten.drop p =
      (parts.getD cur []).drop (p - preLen parts cur) ++
        (parts.drop (cur+1)).flatten := by
    calc parts.flatten.drop p
        = (parts.flatten.drop (preLen parts cur)).drop (p - preLen parts cur) := by
          rw [List.drop_drop]
          congr 1
          omega
      _ = (parts.getD cur [] ++ (parts.drop (cur+1)).flatten).drop
            (p - preLen parts cur) := by rw [flatten_drop parts cur hc]
      _ = _ := List.drop_append_of_le_length hq
  have hlen : t ≤ ((parts.getD cur []).drop (p - preLen parts cur)).length := by
    rw [List.length_drop]
    omega
  rw [h1, h2, List.take_append_of_le_length hlen,
    List.take_append_of_le_length hlen]

theorem mkFile_header_window (parts : List (List Nat)) (k : Nat)
    (hk : k < parts.length) :
    ((mkFile parts).drop (4*k + preLen parts k)).take 4 =
      [((parts.getD k []).length + 4) % 256,
       ((parts.getD k []).length + 4) / 256 % 256, 255, 1] := by
  rw [mkFile_drop parts k hk]
  rfl

theorem expMarkers_length (parts : List (List Nat)) (k : Nat) :
    (expMarkers parts k).length = k := by
  simp [expMarkers]

theorem expMarkers_getD (parts : List (List Nat)) {i k : Nat} (h : i < k) :
    (expMarkers parts k).getD i default = headerAt parts i := by
  rw [expMarkers, List.getD_eq_getElem?_getD, List.getElem?_map,
    List.getElem?_range h]
  rfl

theorem expMarkers_succ (parts : List (List Nat)) (k : Nat) :
    expMarkers parts (k+1) = expMarkers parts k ++ [headerAt parts k] := by
  rw [expMarkers, expMarkers, ← Nat.succ_eq_add_one, List.range_succ,
    List.map_append]
  rfl

theorem expMarkers_getLast (parts : List (List Nat)) (k : Nat) :
    (expMarkers parts (k+1)).getLast? = some (headerAt parts k) := by
  rw [expMarkers_succ]
  exact List.getLast?_concat _

/-! Characterizations of the memfile backend's operations. -/

theorem Mem.readinto_full (m : Mem) (len : Int) (h0 : 0 ≤ len)
    (h1 : m.pos + len.toNat ≤ m.data.length) :
    m.readinto len = (⟨m.data, m.pos + len.toNat⟩,
      (m.data.drop m.pos).take len.toNat, len, .LFP_OK) := by
  unfold Mem.readinto
  dsimp only
  have hle : len ≤ (m.data.length : Int) - (m.pos : Int) := by omega
  rw [min_eq_left hle, max_eq_right h0, if_pos rfl]

theorem Mem.readinto_exhausted (m : Mem) (len : Int) (h0 : 0 < len)
    (h1 : m.data.length ≤ m.pos) :
    m.readinto len = (m, [], 0, .LFP_OKINCOMPLETE) := by
  unfold Mem.readinto
  dsimp only
  have hav : (m.data.length : Int) - (m.pos : Int) ≤ 0 := by omega
  have hmin : min len ((m.data.length : Int) - (m.pos : Int)) =
      (m.data.length : Int) - (m.pos : Int) := min_eq_right (by omega)
  rw [hmin, max_eq_left hav, if_neg (by omega)]
  simp

theorem Mem.readinto_short (m : Mem) (len : Int) (hpos : m.pos ≤ m.data.length)
    (hshort : (m.data.length : Int) - (m.pos : Int) < len) :
    m.readinto len = (⟨m.data, m.data.length⟩, m.data.drop m.pos,
      (m.data.length : Int) - (m.pos : Int), .LFP_OKINCOMPLETE) := by
  unfold Mem.readinto
  dsimp only
  have hav : 0 ≤ (m.data.length : Int) - (m.pos : Int) := by omega
  rw [min_eq_right (le_of_lt hshort), max_eq_right hav, if_neg (by omega)]
  have ht : ((m.data.length : Int) - (m.pos : Int)).toNat =
      m.data.length - m.pos := by omega
  rw [ht]
  congr 1
  · congr 1
    omega
  · congr 1
    exact List.take_of_length_le (by rw [List.length_drop])

/-! Step lemmas for header discovery over a well-formed framed stream. -/

theorem getD_mem_of_lt {α : Type} [Inhabited α] (l : List α) {k : Nat}
    (hk : k < l.length) : l.getD k default ∈ l := by
  rw [List.getD_eq_getElem l default hk]
  exact List.getElem_mem hk

theorem decode_length_header (x : List Nat) (hwf : x.length + 4 ≤ 65535) :
    decode_length [(x.length + 4) % 256, (x.length + 4) / 256 % 256, 255, 1] =
      x.length + 4 := by
  unfold decode_length
  simp only [List.getD_cons_zero, List.getD_cons_succ]
  omega

/-- The successful case of header discovery, over any wrapped
protocol: the decoded header is appended, its `lastbyte` derived from
the previous entry, and the cursor points at it with
`remaining = length - 4`. -/
theorem read_header_ok {S : Type} (W : WProto S) (st : Rp66 S)
    (fp' : S) (b : List Nat) (n : Int)
    (h : W.readinto st.fp 4 = (fp', b, n, .LFP_OK)) :
    read_header W st = .ok ⟨fp',
      st.markers ++ [⟨decode_length b, b.getD 2 0 % 256, b.getD 3 0 % 256,
        ((decode_length b : Int) - headerSize) + prevLast st.markers⟩],
      st.markers.length,
      (decode_length b : Int) - headerSize⟩ := by
  unfold read_header
  rw [h]
  dsimp only
  rw [List.length_append]
  simp

theorem prevLast_exp (parts : List (List Nat)) (k : Nat) :
    prevLast (expMarkers parts k) = (preLen parts k : Int) := by
  cases k with
  | zero => rfl
  | succ j =>
    unfold prevLast
    rw [expMarkers_getLast]
    rfl

/-- Header discovery at the start of header `k` of a well-formed framed
stream appends exactly the derived header of record `k`. -/
theorem read_header_disc (parts : List (List Nat)) (k : Nat) (st : Rp66 Mem)
    (hwf : ∀ part ∈ parts, part.length + 4 ≤ 65535)
    (hk : k < parts.length)
    (hmk : st.markers = expMarkers parts k)
    (hdata : st.fp.data = mkFile parts)
    (hpos : st.fp.pos = 4*k + preLen parts k) :
    read_header memP st = .ok ⟨⟨mkFile parts, 4*k + preLen parts k + 4⟩,
      expMarkers parts (k+1), k,
      (preLen parts (k+1) : Int) - (preLen parts k : Int)⟩ := by
  have hx : (parts.getD k []).length + 4 ≤ 65535 :=
    hwf _ (getD_mem_of_lt parts hk)
  have hlen : st.fp.pos + (4 : Int).toNat ≤ st.fp.data.length := by
    rw [hdata, mkFile_length, hpos]
    have := preLen_le_tot parts k
    have hps := preLen_succ parts k
    omega
  have hfull := Mem.readinto_full st.fp 4 (by omega) hlen
  have hbytes : (st.fp.data.drop st.fp.pos).take (4 : Int).toNat =
      [((parts.getD k []).length + 4) % 256,
       ((parts.getD k []).length + 4) / 256 % 256, 255, 1] := by
    rw [hdata, hpos]
    exact mkFile_header_window parts k hk
  rw [hbytes] at hfull
  rw [read_header_ok memP st _ _ _ hfull, hmk]
  have hps := preLen_succ parts k
  have hdl : decode_length
      [((parts.getD k []).length + 4) % 256,
       ((parts.getD k []).length + 4) / 256 % 256, 255, 1] =
      (parts.getD k []).length + 4 := decode_length_header _ hx
  have hhd : (⟨decode_length
      [((parts.getD k []).length + 4) % 256,
       ((parts.getD k []).length + 4) / 256 % 256, 255, 1],
      ([((parts.getD k []).length + 4) % 256,
        ((parts.getD k []).length + 4) / 256 % 256, 255, 1].getD 2 0) % 256,
      ([((parts.getD k []).length + 4) % 256,
        ((parts.getD k []).length + 4) / 256 % 256, 255, 1].getD 3 0) % 256,
      ((decode_length
        [((parts.getD k []).length + 4) % 256,
         ((parts.getD k []).length + 4) / 256 % 256, 255, 1] : Int) -
        headerSize) + prevLast (expMarkers parts k)⟩ : header) =
      headerAt parts k := by
    rw [header.mk.injEq]
    refine ⟨by rw [hdl]; rfl, by rfl, by rfl, ?_⟩
    rw [hdl, prevLast_exp]
    unfold headerSize headerAt
    push_cast
    omega
  rw [hhd, ← expMarkers_succ, hdl, expMarkers_length]
  rw [Outcome.ok.injEq, Rp66.mk.injEq]
  refine ⟨?_, rfl, rfl, ?_⟩
  · rw [Mem.mk.injEq]
    exact ⟨hdata, by rw [hpos]; omega⟩
  · unfold headerSize
    push_cast
    omega

/-- Header discovery at physical end-of-stream throws `protocol_fatal`. -/
theorem read_header_eof (st : Rp66 Mem)
    (h : st.fp.data.length ≤ st.fp.pos) :
    read_header memP st = .err .protocol_fatal := by
  unfold read_header
  have hx : memP.readinto st.fp 4 = (st.fp, [], 0, .LFP_OKINCOMPLETE) :=
    Mem.readinto_exhausted st.fp 4 (by omega) h
  rw [hx]
  dsimp only
  have he : memP.eof st.fp = true := by
    unfold memP Mem.eof
    exact decide_eq_true h
  rw [he]
  rfl

/-- The cache-hit path of `rp66::read_header(cursor)`: when the next
record is already indexed, no wrapped `readinto` happens — the state is
updated from the cache and the wrapped protocol is merely `seek`ed. -/
theorem read_header_cur_hit {S : Type} (W : WProto S) (st : Rp66 S)
    (h : st.cur + 1 < st.markers.length) :
    read_header_cur W st = .ok ⟨W.seek st.fp
        (((st.cur : Int) + 2) * headerSize +
          (st.markers.getD st.cur default).lastbyte),
      st.markers, st.cur + 1,
      ((st.markers.getD (st.cur + 1) default).length : Int) - headerSize⟩ := by
  unfold read_header_cur
  rw [if_neg (by omega)]
  dsimp only
  have : ((st.cur + 1 : Nat) : Int) + 1 = (st.cur : Int) + 2 := by
    push_cast
    ring
  rw [this]

/-- Under the coupling invariant, the layer is at end-of-file exactly
when the cursor sits on the last record with no bytes remaining. -/
theorem good_eof (parts : List (List Nat)) (k cur p : Nat) (st : Rp66 Mem)
    (hg : Good parts k cur p st) :
    memP.eof st.fp = (decide (cur + 1 = parts.length ∧ p = totLen parts)) := by
  have hhi := hg.hhi
  have hck := hg.hck
  have hkN := hg.hkN
  have h1 := preLen_le_tot parts (cur+1)
  have hdl : st.fp.data.length = 4 * parts.length + totLen parts := by
    rw [hg.hdata, mkFile_length]
  show Mem.eof st.fp = _
  unfold Mem.eof
  rw [hdl, hg.hpos]
  by_cases h : cur + 1 = parts.length ∧ p = totLen parts
  · rw [decide_eq_true h]
    exact decide_eq_true (by omega)
  · rw [decide_eq_false h]
    refine decide_eq_false ?_
    omega

/-- The central correctness lemma for the private `readinto` loop over
a well-formed framed stream: from any good state at logical position
`p`, it returns exactly the next `min len (total - p)` logical bytes,
leaves the layer in a good state advanced by that amount, and ends at
physical EOF whenever it returns fewer than `len` bytes. -/
theorem readinto_loop_good (parts : List (List Nat))
    (hwf : ∀ part ∈ parts, part.length + 4 ≤ 65535) :
    ∀ (fuel : Nat) (k cur p : Nat) (st : Rp66 Mem) (len : Int)
      (acc : List Nat) (nr : Int),
    Good parts k cur p st → 0 ≤ len →
    2 * (parts.length - cur) +
      (if p = preLen parts (cur+1) then 0 else 1) ≤ fuel →
    ∃ (st' : Rp66 Mem) (k' cur' : Nat),
      readinto_loop memP fuel st len acc nr =
        .ok (st', acc ++ (parts.flatten.drop p).take
              (min len.toNat (totLen parts - p)),
          nr + ((min len.toNat (totLen parts - p) : Nat) : Int)) ∧
      Good parts k' cur' (p + min len.toNat (totLen parts - p)) st' ∧
      k ≤ k' ∧
      (((min len.toNat (totLen parts - p) : Nat) : Int) < len →
        memP.eof st'.fp = true) := by
  intro fuel
  induction fuel with
  | zero =>
    intro k cur p st len acc nr hg hlen hfuel
    exfalso
    have := hg.hck
    have := hg.hkN
    omega
  | succ fuel ih =>
    intro k cur p st len acc nr hg hlen hfuel
    have hmk := hg.hmk
    have hcur := hg.hcur
    have hkN := hg.hkN
    have hck := hg.hck
    have hlo := hg.hlo
    have hhi := hg.hhi
    have hrem := hg.hrem
    have hdata := hg.hdata
    have hpos := hg.hpos
    have htot1 := preLen_le_tot parts (cur+1)
    have hps := preLen_succ parts cur
    rw [readinto_loop]
    cases he : memP.eof st.fp with
    | true =>
      rw [if_pos rfl]
      have heq : cur + 1 = parts.length ∧ p = totLen parts := by
        have := good_eof parts k cur p st hg
        rw [he] at this
        exact of_decide_eq_true this.symm
      have hm : min len.toNat (totLen parts - p) = 0 := by omega
      refine ⟨st, k, cur, ?_, ?_, le_rfl, fun _ => he⟩
      · rw [hm]
        simp
      · rw [hm, Nat.add_zero]
        exact hg
    | false =>
      rw [if_neg Bool.false_ne_true]
      have hnoteof : 4*(cur+1) + p < 4*parts.length + totLen parts := by
        have := good_eof parts k cur p st hg
        rw [he] at this
        have h2 := of_decide_eq_false this.symm
        rcases Nat.lt_or_ge (4*(cur+1) + p) (4*parts.length + totLen parts)
          with h3 | h3
        · exact h3
        · exfalso
          exact h2 (by constructor <;> omega)
      by_cases hr : st.remaining = 0
      · rw [if_pos hr]
        have hp : p = preLen parts (cur+1) := by
          rw [hrem] at hr
          omega
        by_cases hcachehit : cur + 1 < k
        · -- the next record is already indexed: cache-hit advance
          have hcnd : st.cur + 1 < st.markers.length := by
            rw [hcur, hmk, expMarkers_length]
            omega
          rw [read_header_cur_hit memP st hcnd]
          have hlb : (st.markers.getD st.cur default).lastbyte =
              (preLen parts (cur+1) : Int) := by
            rw [hcur, hmk, expMarkers_getD parts hck]
            rfl
          have hln : (st.markers.getD (st.cur + 1) default).length =
              (parts.getD (cur+1) []).length + 4 := by
            rw [hcur, hmk, expMarkers_getD parts hcachehit]
            rfl
          have hps2 := preLen_succ parts (cur+1)
          have hg' : Good parts k (cur+1) p
              ⟨memP.seek st.fp (((st.cur : Int) + 2) * headerSize +
                 (st.markers.getD st.cur default).lastbyte),
               st.markers, st.cur + 1,
               ((st.markers.getD (st.cur + 1) default).length : Int) -
                 headerSize⟩ := by
            refine ⟨hmk, by rw [hcur], hkN, hcachehit, by omega,
              by rw [hps2]; omega, ?_, hdata, ?_⟩
            · rw [hln]
              unfold headerSize
              push_cast
              omega
            · show (Mem.seek st.fp _).pos = _
              unfold Mem.seek headerSize
              rw [hlb, hcur, hp]
              show (((cur : Int) + 2) * 4 +
                (preLen parts (cur+1) : Int)).toNat = _
              omega
          obtain ⟨st', k', cur', heq, hgood', hk', heof⟩ :=
            ih k (cur+1) p _ len acc nr hg' hlen (by
              split at hfuel <;> split <;> omega)
          exact ⟨st', k', cur', heq, hgood', by omega, heof⟩
        · -- the next record is not yet indexed: full discovery
          have hkeq : cur + 1 = k := by omega
          have hkN' : k < parts.length := by
            rcases Nat.lt_or_ge k parts.length with h3 | h3
            · exact h3
            · exfalso
              have hkN2 : k = parts.length := by omega
              have : p = totLen parts := by
                rw [hp, hkeq, hkN2]
                exact preLen_of_ge parts le_rfl
              omega
          have hcnd : st.cur + 1 = st.markers.length := by
            rw [hcur, hmk, expMarkers_length]
            omega
          rw [read_header_cur, if_pos hcnd,
            read_header_disc parts k st hwf hkN' hmk hdata (by
              rw [hpos, hp, hkeq])]
          have hg' : Good parts (k+1) k p
              ⟨⟨mkFile parts, 4*k + preLen parts k + 4⟩,
               expMarkers parts (k+1), k,
               (preLen parts (k+1) : Int) - (preLen parts k : Int)⟩ := by
            have hpk : p = preLen parts k := by rw [hp, hkeq]
            refine ⟨rfl, rfl, by omega, by omega, by omega,
              by have := preLen_mono parts (show k ≤ k+1 by omega); omega,
              by dsimp only; rw [hpk], rfl, by dsimp only; omega⟩
          obtain ⟨st', k', cur', heq, hgood', hk', heof⟩ :=
            ih (k+1) k p _ len acc nr hg' hlen (by
              split at hfuel <;> split <;> omega)
          exact ⟨st', k', cur', heq, hgood', by omega, heof⟩
      · -- bytes remain in the current record: physical payload read
        rw [if_neg hr]
        have hrpos : 0 < st.remaining := by
          rw [hrem] at hr ⊢
          omega
        have hplt : p < preLen parts (cur+1) := by
          rw [hrem] at hrpos
          omega
        have h0tr : 0 ≤ min len st.remaining := le_min hlen (le_of_lt hrpos)
        have hfit : st.fp.pos + (min len st.remaining).toNat ≤
            st.fp.data.length := by
          have h5 : min len st.remaining ≤ st.remaining := min_le_right _ _
          rw [hrem] at h5
          rw [hpos, hdata, mkFile_length]
          omega
        have hmp : memP.readinto st.fp (min len st.remaining) = _ :=
          Mem.readinto_full st.fp (min len st.remaining) h0tr hfit
        rw [hmp]
        dsimp only
        rw [if_neg (show
          ¬(lfp_status.LFP_OK = lfp_status.LFP_OKINCOMPLETE) from by simp)]
        by_cases hc : len ≤ st.remaining
        · -- the whole request fits in this record: single read, done
          have htr : min len st.remaining = len := min_eq_left hc
          rw [htr, if_pos rfl]
          have hm : min len.toNat (totLen parts - p) = len.toNat := by
            rw [hrem] at hc
            omega
          have hb : (st.fp.data.drop st.fp.pos).take len.toNat =
              (parts.flatten.drop p).take len.toNat := by
            rw [hdata, hpos]
            refine window_eq parts cur p len.toNat (by omega) hlo hhi ?_
            rw [hrem] at hc
            omega
          refine ⟨⟨⟨st.fp.data, st.fp.pos + len.toNat⟩, st.markers, st.cur,
              st.remaining - len⟩, k, cur, ?_, ?_, le_rfl, ?_⟩
          · rw [hm, hb, Int.toNat_of_nonneg hlen]
          · rw [hm]
            refine ⟨hmk, hcur, hkN, hck, by omega, by rw [hrem] at hc; omega,
              by dsimp only; rw [hrem]; push_cast; omega, hdata,
              by dsimp only; omega⟩
          · intro habs
            rw [hm] at habs
            omega
        · -- the record is exhausted first: consume it and loop
          have htr : min len st.remaining = st.remaining :=
            min_eq_right (by omega)
          rw [htr, if_neg (by omega)]
          set r : Nat := preLen parts (cur+1) - p with hrdef
          have hrr : st.remaining = (r : Int) := by
            rw [hrem]
            omega
          have hg' : Good parts k cur (p + r)
              ⟨⟨st.fp.data, st.fp.pos + st.remaining.toNat⟩, st.markers,
                st.cur, st.remaining - st.remaining⟩ := by
            refine ⟨hmk, hcur, hkN, hck, by omega, by omega, ?_, hdata, ?_⟩
            · dsimp only
              rw [hrr]
              push_cast
              omega
            · dsimp only
              omega
          obtain ⟨st', k', cur', heq, hgood', hk', heof⟩ :=
            ih k cur (p + r) _ (len - st.remaining) (acc ++
                (st.fp.data.drop st.fp.pos).take st.remaining.toNat)
              (nr + st.remaining) hg' (by omega) (by
              split at hfuel
              · omega
              · split
                · omega
                · exfalso
                  rename_i hfalse
                  exact hfalse (by omega))
          rw [heq]
          have hb : (st.fp.data.drop st.fp.pos).take st.remaining.toNat =
              (parts.flatten.drop p).take r := by
            rw [hdata, hpos, hrr]
            show ((mkFile parts).drop (4*(cur+1) + p)).take ((r : Int)).toNat = _
            rw [Int.toNat_ofNat]
            exact window_eq parts cur p r (by omega) hlo hhi (by omega)
          have hm' : min (len - st.remaining).toNat (totLen parts - (p + r)) +
              r = min len.toNat (totLen parts - p) := by
            have h1 : r ≤ totLen parts - p := by omega
            rw [hrr]
            omega
          refine ⟨st', k', cur', ?_, ?_, hk', ?_⟩
          · rw [hb]
            have hsplit : (parts.flatten.drop p).take
                (min len.toNat (totLen parts - p)) =
                (parts.flatten.drop p).take r ++
                  (parts.flatten.drop (p + r)).take
                    (min (len - st.remaining).toNat
                      (totLen parts - (p + r))) := by
              rw [← hm', Nat.add_comm, List.take_add, List.drop_drop]
            rw [hsplit, List.append_assoc]
            have hnr : nr + st.remaining +
                ((min (len - st.remaining).toNat
                  (totLen parts - (p + r)) : Nat) : Int) =
                nr + ((min len.toNat (totLen parts - p) : Nat) : Int) := by
              omega
            rw [hnr]
          · rw [← hm']
            have : p + r + min (len - st.remaining).toNat
                (totLen parts - (p + r)) =
                p + (min (len - st.remaining).toNat
                  (totLen parts - (p + r)) + r) := by omega
            rw [← this]
            exact hgood'
          · intro habs
            refine heof ?_
            rw [← hm'] at habs
            rw [hrr] at *
            push_cast at habs ⊢
            omega

theorem rp66_readinto_eq {S : Type} (W : WProto S) (fuel : Nat)
    (st st' : Rp66 S) (len : Int) (out : List Nat) (n : Int)
    (h : readinto_loop W fuel st len [] 0 = .ok (st', out, n))
    (hle : ¬(4294967295 : Int) < len) :
    rp66_readinto W fuel st len =
      .ok (st', out, n,
        if n < len then .LFP_OKINCOMPLETE else .LFP_OK) := by
  unfold rp66_readinto
  rw [if_neg hle, h]

/-- The public `readinto` from any good state: it produces exactly the
next `min len (total - p)` logical bytes, with `LFP_OK` exactly when
the full request was satisfied. -/
theorem rp66_readinto_good (parts : List (List Nat))
    (hwf : ∀ part ∈ parts, part.length + 4 ≤ 65535)
    (fuel : Nat) (k cur p : Nat) (st : Rp66 Mem) (len : Int)
    (hg : Good parts k cur p st) (h0 : 0 ≤ len) (h1 : len ≤ 4294967295)
    (hfuel : 2 * parts.length + 1 ≤ fuel) :
    ∃ (st' : Rp66 Mem) (k' cur' : Nat),
      rp66_readinto memP fuel st len =
        .ok (st',
          (parts.flatten.drop p).take (min len.toNat (totLen parts - p)),
          ((min len.toNat (totLen parts - p) : Nat) : Int),
          if ((min len.toNat (totLen parts - p) : Nat) : Int) < len
            then .LFP_OKINCOMPLETE else .LFP_OK) ∧
      Good parts k' cur' (p + min len.toNat (totLen parts - p)) st' ∧
      k ≤ k' ∧
      (((min len.toNat (totLen parts - p) : Nat) : Int) < len →
        memP.eof st'.fp = true) := by
  obtain ⟨st', k', cur', heq, hgood, hk, heof⟩ :=
    readinto_loop_good parts hwf fuel k cur p st len [] 0 hg h0 (by
      have := hg.hck
      have := hg.hkN
      split <;> omega)
  rw [List.nil_append, Int.zero_add] at heq
  exact ⟨st', k', cur',
    rp66_readinto_eq memP fuel st st' len _ _ heq (by omega), hgood, hk, heof⟩

/-- Opening a well-formed framed stream succeeds and leaves the layer
in the good state at logical position 0 with the first header indexed. -/
theorem lfp_rp66_open_good (parts : List (List Nat))
    (hwf : ∀ part ∈ parts, part.length + 4 ≤ 65535) (hne : parts ≠ []) :
    ∃ st0 : Rp66 Mem, lfp_rp66_open memP (some ⟨mkFile parts, 0⟩) = some st0 ∧
      Good parts 1 0 0 st0 := by
  have hk : 0 < parts.length := List.length_pos.mpr hne
  have hd := read_header_disc parts 0 ⟨⟨mkFile parts, 0⟩, [], 0, 0⟩ hwf hk
    rfl rfl rfl
  unfold lfp_rp66_open
  dsimp only
  rw [hd]
  refine ⟨_, rfl, rfl, rfl, by omega, by omega, le_rfl, Nat.zero_le _, ?_,
    rfl, by dsimp only; rw [preLen_zero]⟩
  dsimp only
  rw [preLen_zero]

/-- Fold a sequence of `readinto` calls of the given sizes over the
layer, concatenating their outputs (`none` on any error or timeout). -/
def readAll (fuel : Nat) : Rp66 Mem → List Nat → Option (List Nat)
  | _, [] => some []
  | st, c :: cs =>
    match rp66_readinto memP fuel st (c : Int) with
    | .ok (st', out, _, _) =>
      (readAll fuel st' cs).map (fun rest => out ++ rest)
    | _ => none

/-- Chunking invariance: a sequence of reads of any sizes from a good
state returns the next `min (sum of sizes) (total - p)` logical bytes. -/
theorem readAll_good (parts : List (List Nat))
    (hwf : ∀ part ∈ parts, part.length + 4 ≤ 65535)
    (fuel : Nat) (hfuel : 2 * parts.length + 1 ≤ fuel) :
    ∀ (cs : List Nat) (k cur p : Nat) (st : Rp66 Mem),
    Good parts k cur p st → (∀ c ∈ cs, c ≤ 4294967295) →
    readAll fuel st cs =
      some ((parts.flatten.drop p).take
        (min cs.sum (totLen parts - p))) := by
  intro cs
  induction cs with
  | nil =>
    intro k cur p st hg hc
    rw [readAll]
    simp
  | cons c cs ihc =>
    intro k cur p st hg hc
    obtain ⟨st', k', cur', heq, hgood, hk, heof⟩ :=
      rp66_readinto_good parts hwf fuel k cur p st (c : Int) hg
        (by omega) (by have := hc c (List.mem_cons_self c cs); omega) hfuel
    rw [readAll, heq]
    dsimp only
    have hcn : ((c : Int)).toNat = c := by omega
    rw [hcn] at hgood ⊢
    rw [ihc k' cur' (p + min c (totLen parts - p)) st' hgood
      (fun x hx => hc x (List.mem_cons_of_mem c hx))]
    rw [Option.map_some', List.sum_cons]
    have hsum : min (c + cs.sum) (totLen parts - p) =
        min c (totLen parts - p) +
          min cs.sum (totLen parts - (p + min c (totLen parts - p))) := by
      omega
    rw [hsum, List.take_add, List.drop_drop]

/-! Seek machinery. -/

theorem scan_idx_spec (n : Int) :
    ∀ (l : List header), (∃ x ∈ l, n ≤ x.lastbyte) →
    scan_idx l n < l.length ∧
    n ≤ (l.getD (scan_idx l n) default).lastbyte ∧
    ∀ j < scan_idx l n, (l.getD j default).lastbyte < n := by
  intro l
  induction l with
  | nil =>
    intro h
    simp at h
  | cons a t ihl =>
    intro h
    by_cases ha : a.lastbyte < n
    · have ht : ∃ x ∈ t, n ≤ x.lastbyte := by
        rcases h with ⟨x, hx, hxn⟩
        rcases List.mem_cons.mp hx with rfl | hx'
        · omega
        · exact ⟨x, hx', hxn⟩
      obtain ⟨h1, h2, h3⟩ := ihl ht
      rw [scan_idx, if_pos ha]
      refine ⟨by simpa using h1, by simpa [List.getD_cons_succ] using h2, ?_⟩
      intro j hj
      cases j with
      | zero => simpa using ha
      | succ i =>
        rw [List.getD_cons_succ]
        exact h3 i (by omega)
    · rw [scan_idx, if_neg ha]
      refine ⟨by simp, by simpa using not_lt.mp ha, ?_⟩
      intro j hj
      omega

/-- `rp66::seek_with_index` from a state whose index covers the
target: the result is the good state at logical position `n`, on the
first record whose `lastbyte` reaches `n`. -/
theorem seek_with_index_good (parts : List (List Nat)) (k : Nat)
    (st : Rp66 Mem) (n : Int)
    (hmk : st.markers = expMarkers parts k)
    (hdata : st.fp.data = mkFile parts)
    (hkN : k ≤ parts.length) (hkpos : 0 < k) (h0 : 0 ≤ n)
    (hn : n ≤ (preLen parts k : Int)) :
    ∃ i, i < k ∧ Good parts k i n.toNat (seek_with_index memP st n) := by
  obtain ⟨⟨da, po⟩, mks, cu, re⟩ := st
  dsimp only at hmk hdata
  subst hmk hdata
  have hke : k - 1 + 1 = k := by omega
  have hex : ∃ x ∈ expMarkers parts k, n ≤ x.lastbyte := by
    refine ⟨(expMarkers parts k).getD (k-1) default,
      getD_mem_of_lt _ (by rw [expMarkers_length]; omega), ?_⟩
    rw [expMarkers_getD parts (by omega)]
    show n ≤ (preLen parts (k-1+1) : Int)
    rw [hke]
    exact hn
  obtain ⟨h1, h2, h3⟩ := scan_idx_spec n (expMarkers parts k) hex
  rw [expMarkers_length] at h1
  have hgd : ((expMarkers parts k).getD
      (scan_idx (expMarkers parts k) n) default).lastbyte =
      (preLen parts (scan_idx (expMarkers parts k) n + 1) : Int) := by
    rw [expMarkers_getD parts h1]
    rfl
  rw [hgd] at h2
  have hlo : (preLen parts (scan_idx (expMarkers parts k) n) : Int) ≤ n := by
    cases hsi : scan_idx (expMarkers parts k) n with
    | zero =>
      rw [preLen_zero]
      exact h0
    | succ i0 =>
      have h4 := h3 i0 (by omega)
      rw [expMarkers_getD parts (by omega)] at h4
      have h5 : ((headerAt parts i0).lastbyte) =
          (preLen parts (i0+1) : Int) := rfl
      rw [h5] at h4
      exact le_of_lt h4
  refine ⟨scan_idx (expMarkers parts k) n, h1, ?_⟩
  unfold seek_with_index
  dsimp only
  refine ⟨rfl, rfl, hkN, h1, by omega, by omega, ?_, rfl, ?_⟩
  · dsimp only
    rw [hgd]
    omega
  · show (Mem.seek ⟨mkFile parts, po⟩ _).pos = _
    unfold Mem.seek headerSize
    dsimp only
    omega

/-- The forward-discovery loop of `seek` finds (and indexes) the first
record whose `lastbyte` reaches an in-range target. -/
theorem seek_loop_found (parts : List (List Nat))
    (hwf : ∀ part ∈ parts, part.length + 4 ≤ 65535) (n : Int) :
    ∀ (fuel k : Nat) (st : Rp66 Mem),
    st.markers = expMarkers parts k → st.fp.data = mkFile parts →
    k ≤ parts.length →
    (preLen parts k : Int) < n → n ≤ (totLen parts : Int) →
    parts.length - k < fuel →
    ∃ j, k ≤ j ∧ j < parts.length ∧
      (preLen parts j : Int) < n ∧ n ≤ (preLen parts (j+1) : Int) ∧
      seek_loop memP fuel st n ((4 * k + preLen parts k : Nat) : Int) =
        .ok (⟨⟨mkFile parts, 4*j + preLen parts j + 4⟩,
          expMarkers parts (j+1), j,
          (preLen parts (j+1) : Int) - (preLen parts j : Int)⟩,
          ((4 * (j+1) + preLen parts (j+1) : Nat) : Int)) := by
  intro fuel
  induction fuel with
  | zero =>
    intro k st hmk hdata hkN hlt hle hfuel
    omega
  | succ fuel ihf =>
    intro k st hmk hdata hkN hlt hle hfuel
    have hkN' : k < parts.length := by
      rcases Nat.lt_or_ge k parts.length with h | h
      · exact h
      · exfalso
        rw [preLen_of_ge parts h] at hlt
        omega
    rw [seek_loop]
    have hst0 : read_header memP
        ⟨Mem.seek st.fp ((4 * k + preLen parts k : Nat) : Int), st.markers,
          st.cur, st.remaining⟩ =
        .ok ⟨⟨mkFile parts, 4*k + preLen parts k + 4⟩,
          expMarkers parts (k+1), k,
          (preLen parts (k+1) : Int) - (preLen parts k : Int)⟩ := by
      refine read_header_disc parts k _ hwf hkN' hmk hdata ?_
      show ((4 * k + preLen parts k : Nat) : Int).toNat = _
      omega
    have hsk : memP.seek st.fp ((4 * k + preLen parts k : Nat) : Int) =
        Mem.seek st.fp ((4 * k + preLen parts k : Nat) : Int) := rfl
    rw [hsk, hst0]
    dsimp only
    rw [expMarkers_getD parts (Nat.lt_succ_self k)]
    have hps := preLen_succ parts k
    by_cases hbr : n ≤ (preLen parts (k+1) : Int)
    · rw [if_pos (by show n ≤ (preLen parts (k+1) : Int); exact hbr)]
      refine ⟨k, le_rfl, hkN', hlt, hbr, ?_⟩
      rw [Outcome.ok.injEq, Prod.mk.injEq]
      refine ⟨rfl, ?_⟩
      show ((4 * k + preLen parts k : Nat) : Int) +
        ((headerAt parts k).length : Int) = _
      unfold headerAt
      dsimp only
      push_cast
      omega
    · rw [if_neg (by simpa using hbr)]
      have hoff : ((4 * k + preLen parts k : Nat) : Int) +
          ((headerAt parts k).length : Int) =
          ((4 * (k+1) + preLen parts (k+1) : Nat) : Int) := by
        unfold headerAt
        dsimp only
        push_cast
        omega
      rw [hoff]
      obtain ⟨j, hj1, hj2, hj3, hj4, hj5⟩ := ihf (k+1)
        ⟨⟨mkFile parts, 4*k + preLen parts k + 4⟩, expMarkers parts (k+1), k,
          (preLen parts (k+1) : Int) - (preLen parts k : Int)⟩
        rfl rfl (by omega) (by omega) hle (by omega)
      exact ⟨j, by omega, hj2, hj3, hj4, hj5⟩

/-- The forward-discovery loop of `seek` hits physical end-of-stream
and throws `protocol_fatal` when the target lies beyond the stream. -/
theorem seek_loop_fatal (parts : List (List Nat))
    (hwf : ∀ part ∈ parts, part.length + 4 ≤ 65535) (n : Int)
    (hn : (totLen parts : Int) < n) :
    ∀ (fuel k : Nat) (st : Rp66 Mem),
    st.markers = expMarkers parts k → st.fp.data = mkFile parts →
    k ≤ parts.length →
    parts.length - k < fuel →
    seek_loop memP fuel st n ((4 * k + preLen parts k : Nat) : Int) =
      .err .protocol_fatal := by
  intro fuel
  induction fuel with
  | zero =>
    intro k st hmk hdata hkN hfuel
    omega
  | succ fuel ihf =>
    intro k st hmk hdata hkN hfuel
    rw [seek_loop]
    rcases Nat.lt_or_ge k parts.length with hkN' | hkN'
    · have hst0 : read_header memP
          ⟨Mem.seek st.fp ((4 * k + preLen parts k : Nat) : Int), st.markers,
            st.cur, st.remaining⟩ =
          .ok ⟨⟨mkFile parts, 4*k + preLen parts k + 4⟩,
            expMarkers parts (k+1), k,
            (preLen parts (k+1) : Int) - (preLen parts k : Int)⟩ := by
        refine read_header_disc parts k _ hwf hkN' hmk hdata ?_
        show ((4 * k + preLen parts k : Nat) : Int).toNat = _
        omega
      have hsk : memP.seek st.fp ((4 * k + preLen parts k : Nat) : Int) =
          Mem.seek st.fp ((4 * k + preLen parts k : Nat) : Int) := rfl
      rw [hsk, hst0]
      dsimp only
      rw [expMarkers_getD parts (Nat.lt_succ_self k)]
      have htle := preLen_le_tot parts (k+1)
      rw [if_neg (by
        show ¬ n ≤ ((headerAt parts k).lastbyte)
        unfold headerAt
        dsimp only
        omega)]
      have hoff : ((4 * k + preLen parts k : Nat) : Int) +
          ((headerAt parts k).length : Int) =
          ((4 * (k+1) + preLen parts (k+1) : Nat) : Int) := by
        unfold headerAt
        dsimp only
        push_cast
        have := preLen_succ parts k
        omega
      rw [hoff]
      exact ihf (k+1) _ rfl rfl (by omega) (by omega)
    · have hkeq : k = parts.length := by omega
      have heof : read_header memP
          ⟨Mem.seek st.fp ((4 * k + preLen parts k : Nat) : Int), st.markers,
            st.cur, st.remaining⟩ =
          .err .protocol_fatal := by
        refine read_header_eof _ ?_
        show st.fp.data.length ≤ ((4 * k + preLen parts k : Nat) : Int).toNat
        rw [hdata, mkFile_length, hkeq, preLen_of_ge parts le_rfl]
        omega
      have hsk : memP.seek st.fp ((4 * k + preLen parts k : Nat) : Int) =
          Mem.seek st.fp ((4 * k + preLen parts k : Nat) : Int) := rfl
      rw [hsk, heof]

/-- `tell` returns the logical position of any good state. -/
theorem rp66_tell_good (parts : List (List Nat)) (k cur p : Nat)
    (st : Rp66 Mem) (hg : Good parts k cur p st) :
    rp66_tell st = (p : Int) := by
  unfold rp66_tell
  rw [hg.hmk, hg.hcur, expMarkers_getD parts hg.hck, hg.hrem]
  show (preLen parts (cur+1) : Int) -
    ((preLen parts (cur+1) : Int) - (p : Int)) = (p : Int)
  omega

theorem markers_isEmpty_false (parts : List (List Nat)) (k : Nat)
    (st : Rp66 Mem) (hmk : st.markers = expMarkers parts k) (hk : 0 < k) :
    st.markers.isEmpty = false := by
  cases hM : st.markers with
  | nil =>
    exfalso
    have h1 := expMarkers_length parts k
    rw [← hmk, hM] at h1
    simp at h1
    omega
  | cons a t => rfl

/-- `seek` to any in-range target from any good state succeeds and
leaves the layer in a good state at the target, with `tell` returning
the target. -/
theorem rp66_seek_good (parts : List (List Nat))
    (hwf : ∀ part ∈ parts, part.length + 4 ≤ 65535)
    (fuel : Nat) (k cur p : Nat) (st : Rp66 Mem) (n : Int)
    (hg : Good parts k cur p st) (h0 : 0 ≤ n)
    (hn : n ≤ (totLen parts : Int)) (hfuel : parts.length ≤ fuel) :
    ∃ (st' : Rp66 Mem) (k' cur' : Nat),
      rp66_seek memP fuel st n = .ok st' ∧
      Good parts k' cur' n.toNat st' ∧ k ≤ k' ∧ rp66_tell st' = n := by
  have hmk := hg.hmk
  have hkN := hg.hkN
  have hck := hg.hck
  have hdata := hg.hdata
  have hkpos : 0 < k := by omega
  have hke : k - 1 + 1 = k := by omega
  unfold rp66_seek
  rw [if_neg (by omega)]
  rw [markers_isEmpty_false parts k st hmk hkpos]
  rw [if_neg Bool.false_ne_true]
  dsimp only
  have hlastb : (st.markers.getD (st.markers.length - 1) default).lastbyte =
      (preLen parts k : Int) := by
    rw [hmk, expMarkers_length, expMarkers_getD parts (by omega)]
    show (preLen parts (k-1+1) : Int) = _
    rw [hke]
  rw [hlastb]
  by_cases hbr : n ≤ (preLen parts k : Int)
  · rw [if_pos hbr]
    obtain ⟨i, hik, hgood⟩ := seek_with_index_good parts k
      ⟨st.fp, st.markers, st.markers.length - 1, st.remaining⟩ n
      hmk hdata hkN hkpos h0 hbr
    refine ⟨_, k, i, rfl, hgood, le_rfl, ?_⟩
    rw [rp66_tell_good parts k i n.toNat _ hgood]
    omega
  · rw [if_neg hbr]
    have hoff : (st.markers.length : Int) * headerSize +
        (preLen parts k : Int) = ((4 * k + preLen parts k : Nat) : Int) := by
      rw [hmk, expMarkers_length]
      unfold headerSize
      push_cast
      ring
    rw [hoff]
    obtain ⟨j, hj1, hj2, hj3, hj4, hj5⟩ := seek_loop_found parts hwf n fuel k
      ⟨st.fp, st.markers, st.markers.length - 1, st.remaining⟩
      hmk hdata hkN (by omega) hn (by omega)
    rw [hj5]
    dsimp only
    rw [expMarkers_getD parts (Nat.lt_succ_self j)]
    have hlbj : ((headerAt parts j).lastbyte) =
        (preLen parts (j+1) : Int) := rfl
    rw [hlbj]
    refine ⟨_, j+1, j, rfl, ?_, by omega, ?_⟩
    · refine ⟨rfl, rfl, by omega, by omega, by omega, by omega, ?_, rfl, ?_⟩
      · dsimp only
        omega
      · show (Mem.seek _ _).pos = _
        unfold Mem.seek
        dsimp only
        omega
    · unfold rp66_tell
      dsimp only
      rw [expMarkers_getD parts (Nat.lt_succ_self j), hlbj]
      omega

/-- `seek` strictly past the total payload of a well-formed stream
follows headers to physical end-of-stream and throws
`protocol_fatal`. -/
theorem rp66_seek_past_end (parts : List (List Nat))
    (hwf : ∀ part ∈ parts, part.length + 4 ≤ 65535)
    (fuel : Nat) (k cur p : Nat) (st : Rp66 Mem) (n : Int)
    (hg : Good parts k cur p st) (hn : (totLen parts : Int) < n)
    (hfuel : parts.length ≤ fuel) :
    rp66_seek memP fuel st n = .err .protocol_fatal := by
  have hmk := hg.hmk
  have hkN := hg.hkN
  have hck := hg.hck
  have hdata := hg.hdata
  have hkpos : 0 < k := by omega
  have hke : k - 1 + 1 = k := by omega
  have htle := preLen_le_tot parts k
  unfold rp66_seek
  rw [if_neg (by omega)]
  rw [markers_isEmpty_false parts k st hmk hkpos]
  rw [if_neg Bool.false_ne_true]
  dsimp only
  have hlastb : (st.markers.getD (st.markers.length - 1) default).lastbyte =
      (preLen parts k : Int) := by
    rw [hmk, expMarkers_length, expMarkers_getD parts (by omega)]
    show (preLen parts (k-1+1) : Int) = _
    rw [hke]
  rw [hlastb]
  rw [if_neg (by omega)]
  have hoff : (st.markers.length : Int) * headerSize +
      (preLen parts k : Int) = ((4 * k + preLen parts k : Nat) : Int) := by
    rw [hmk, expMarkers_length]
    unfold headerSize
    push_cast
    ring
  rw [hoff]
  rw [seek_loop_fatal parts hwf n hn fuel k
    ⟨st.fp, st.markers, st.markers.length - 1, st.remaining⟩
    hmk hdata hkN (by omega)]

/-! Append-only growth of the index, over any wrapped protocol. -/

theorem read_header_markers_append {S : Type} (W : WProto S)
    (st st' : Rp66 S) (h : read_header W st = .ok st') :
    ∃ t, st'.markers = st.markers ++ t := by
  unfold read_header at h
  rcases hx : W.readinto st.fp 4 with ⟨fp', b, n, errc⟩
  rw [hx] at h
  cases errc with
  | LFP_OK =>
    dsimp only at h
    cases h
    exact ⟨_, rfl⟩
  | LFP_OKINCOMPLETE =>
    dsimp only at h
    split at h <;> exact Outcome.noConfusion h
  | LFP_OTHER => exact Outcome.noConfusion h

theorem read_header_cur_markers_append {S : Type} (W : WProto S)
    (st st' : Rp66 S) (h : read_header_cur W st = .ok st') :
    ∃ t, st'.markers = st.markers ++ t := by
  unfold read_header_cur at h
  split at h
  · exact read_header_markers_append W st st' h
  · cases h
    exact ⟨[], (List.append_nil _).symm⟩

theorem readinto_loop_markers_append {S : Type} (W : WProto S) :
    ∀ (fuel : Nat) (st : Rp66 S) (len : Int) (acc : List Nat) (nr : Int)
      (st' : Rp66 S) (out : List Nat) (n : Int),
    readinto_loop W fuel st len acc nr = .ok (st', out, n) →
    ∃ t, st'.markers = st.markers ++ t := by
  intro fuel
  induction fuel with
  | zero =>
    intro st len acc nr st' out n h
    rw [readinto_loop] at h
    exact Outcome.noConfusion h
  | succ fuel ih =>
    intro st len acc nr st' out n h
    rw [readinto_loop] at h
    split at h
    · cases h
      exact ⟨[], (List.append_nil _).symm⟩
    · split at h
      · split at h
        · rename_i st1 hx
          obtain ⟨t1, ht1⟩ := read_header_cur_markers_append W st st1 hx
          obtain ⟨t2, ht2⟩ := ih st1 len acc nr st' out n h
          exact ⟨t1 ++ t2, by rw [ht2, ht1, List.append_assoc]⟩
        · exact Outcome.noConfusion h
        · exact Outcome.noConfusion h
      · rcases hx : W.readinto st.fp (min len st.remaining) with ⟨fp', b, nn, errc⟩
        rw [hx] at h
        dsimp only at h
        split at h
        · cases h
          exact ⟨[], (List.append_nil _).symm⟩
        · split at h
          · cases h
            exact ⟨[], (List.append_nil _).symm⟩
          · obtain ⟨t, ht⟩ := ih ⟨fp', st.markers, st.cur, st.remaining - nn⟩
              (len - nn) (acc ++ b) (nr + nn) st' out n h
            exact ⟨t, ht⟩

theorem seek_loop_markers_append {S : Type} (W : WProto S) :
    ∀ (fuel : Nat) (st : Rp66 S) (n off : Int) (st' : Rp66 S) (off' : Int),
    seek_loop W fuel st n off = .ok (st', off') →
    ∃ t, st'.markers = st.markers ++ t := by
  intro fuel
  induction fuel with
  | zero =>
    intro st n off st' off' h
    rw [seek_loop] at h
    exact Outcome.noConfusion h
  | succ fuel ih =>
    intro st n off st' off' h
    rw [seek_loop] at h
    split at h
    · rename_i st1 hx
      obtain ⟨t1, ht1⟩ := read_header_markers_append W _ st1 hx
      split at h
      · cases h
        exact ⟨t1, ht1⟩
      · obtain ⟨t2, ht2⟩ := ih st1 n _ st' off' h
        exact ⟨t1 ++ t2, by rw [ht2, ht1, List.append_assoc]⟩
    · exact Outcome.noConfusion h
    · exact Outcome.noConfusion h

theorem rp66_readinto_markers_append {S : Type} (W : WProto S) (fuel : Nat)
    (st : Rp66 S) (len : Int) (st' : Rp66 S) (out : List Nat) (n : Int)
    (s : lfp_status)
    (h : rp66_readinto W fuel st len = .ok (st', out, n, s)) :
    ∃ t, st'.markers = st.markers ++ t := by
  unfold rp66_readinto at h
  split at h
  · exact Outcome.noConfusion h
  · split at h
    · rename_i st1 out1 n1 hx
      cases h
      exact readinto_loop_markers_append W fuel st len [] 0 _ _ _ hx
    · exact Outcome.noConfusion h
    · exact Outcome.noConfusion h

theorem rp66_seek_markers_append {S : Type} (W : WProto S) (fuel : Nat)
    (st : Rp66 S) (n : Int) (st' : Rp66 S)
    (h : rp66_seek W fuel st n = .ok st') :
    ∃ t, st'.markers = st.markers ++ t := by
  unfold rp66_seek at h
  split at h
  · exact Outcome.noConfusion h
  · split at h
    · rename_i st1 hx
      have h1 : ∃ t, st1.markers = st.markers ++ t := by
        split at hx
        · exact read_header_markers_append W st st1 hx
        · cases hx
          exact ⟨[], (List.append_nil _).symm⟩
      obtain ⟨t1, ht1⟩ := h1
      dsimp only at h
      split at h
      · cases h
        exact ⟨t1, ht1⟩
      · split at h
        · rename_i st3 off' hy
          obtain ⟨t2, ht2⟩ := seek_loop_markers_append W fuel _ n _ st3 off' hy
          cases h
          exact ⟨t1 ++ t2, by
            show st3.markers = _
            rw [ht2]
            show st1.markers ++ t2 = _
            rw [ht1, List.append_assoc]⟩
        · exact Outcome.noConfusion h
        · exact Outcome.noConfusion h
    · exact Outcome.noConfusion h
    · exact Outcome.noConfusion h

/-! The error kinds each operation can throw, over any wrapped
protocol: header discovery throws only the three header errors, and
`invalid_args` arises only from the argument checks. -/

theorem read_header_err_kind {S : Type} (W : WProto S) (st : Rp66 S)
    (e : lfp_error) (h : read_header W st = .err e) :
    e = .protocol_fatal ∨ e = .protocol_failed_recovery ∨
      e = .not_implemented := by
  unfold read_header at h
  rcases hx : W.readinto st.fp 4 with ⟨fp', b, n, errc⟩
  rw [hx] at h
  cases errc with
  | LFP_OK =>
    dsimp only at h
    exact Outcome.noConfusion h
  | LFP_OKINCOMPLETE =>
    dsimp only at h
    split at h <;> cases h
    · exact Or.inl rfl
    · exact Or.inr (Or.inl rfl)
  | LFP_OTHER =>
    cases h
    exact Or.inr (Or.inr rfl)

theorem read_header_cur_err_kind {S : Type} (W : WProto S) (st : Rp66 S)
    (e : lfp_error) (h : read_header_cur W st = .err e) :
    e = .protocol_fatal ∨ e = .protocol_failed_recovery ∨
      e = .not_implemented := by
  unfold read_header_cur at h
  split at h
  · exact read_header_err_kind W st e h
  · exact Outcome.noConfusion h

theorem readinto_loop_err_kind {S : Type} (W : WProto S) :
    ∀ (fuel : Nat) (st : Rp66 S) (len : Int) (acc : List Nat) (nr : Int)
      (e : lfp_error),
    readinto_loop W fuel st len acc nr = .err e →
    e = .protocol_fatal ∨ e = .protocol_failed_recovery ∨
      e = .not_implemented := by
  intro fuel
  induction fuel with
  | zero =>
    intro st len acc nr e h
    rw [readinto_loop] at h
    exact Outcome.noConfusion h
  | succ fuel ih =>
    intro st len acc nr e h
    rw [readinto_loop] at h
    split at h
    · exact Outcome.noConfusion h
    · split at h
      · split at h
        · exact ih _ _ _ _ _ h
        · rename_i e1 hx
          cases h
          exact read_header_cur_err_kind W st e hx
        · exact Outcome.noConfusion h
      · rcases hx : W.readinto st.fp (min len st.remaining) with ⟨fp', b, nn, errc⟩
        rw [hx] at h
        dsimp only at h
        split at h
        · exact Outcome.noConfusion h
        · split at h
          · exact Outcome.noConfusion h
          · exact ih _ _ _ _ _ h

theorem seek_loop_err_kind {S : Type} (W : WProto S) :
    ∀ (fuel : Nat) (st : Rp66 S) (n off : Int) (e : lfp_error),
    seek_loop W fuel st n off = .err e →
    e = .protocol_fatal ∨ e = .protocol_failed_recovery ∨
      e = .not_implemented := by
  intro fuel
  induction fuel with
  | zero =>
    intro st n off e h
    rw [seek_loop] at h
    exact Outcome.noConfusion h
  | succ fuel ih =>
    intro st n off e h
    rw [seek_loop] at h
    split at h
    · split at h
      · exact Outcome.noConfusion h
      · exact ih _ n _ e h
    · rename_i e1 hx
      cases h
      exact read_header_err_kind W _ e hx
    · exact Outcome.noConfusion h

/-! The claims. -/

/-- Claim C1: round-trip identity and chunking invariance of
`readinto`: for every logical byte sequence packed into valid rp66
framing records (any partition into one or more records, each header
well-formed with length = payload + 4, format 0xFF, major 1), reading
the entire framed stream through the layer reproduces exactly the
original unframed bytes, and doing so in one large readinto call
versus any partition into many smaller readinto calls yields
byte-for-byte identical concatenated output. -/
theorem claim_C1 (parts : List (List Nat)) (chunks : List Nat)
    (hwf : WFParts parts) (hsum : chunks.sum = totLen parts)
    (hfit : totLen parts ≤ 4294967295) :
    (lfp_rp66_open memP (some ⟨mkFile parts, 0⟩)).bind
      (fun st0 => readAll (2 * parts.length + 1) st0 [totLen parts]) =
      some parts.flatten ∧
    (lfp_rp66_open memP (some ⟨mkFile parts, 0⟩)).bind
      (fun st0 => readAll (2 * parts.length + 1) st0 chunks) =
      some parts.flatten := by
  obtain ⟨hne, hwf'⟩ := hwf
  obtain ⟨st0, hopen, hgood⟩ := lfp_rp66_open_good parts hwf' hne
  rw [hopen]
  have htake : ∀ s : Nat, s = totLen parts →
      (parts.flatten.drop 0).take (min s (totLen parts - 0)) =
        parts.flatten := by
    intro s hs
    rw [List.drop_zero, hs, Nat.sub_zero, min_self]
    exact List.take_of_length_le (by rw [flatten_length])
  constructor
  · show readAll (2 * parts.length + 1) st0 [totLen parts] = _
    rw [readAll_good parts hwf' _ le_rfl [totLen parts] 1 0 0 st0 hgood
      (by intro c hc; simp at hc; omega)]
    rw [htake _ (by simp)]
  · show readAll (2 * parts.length + 1) st0 chunks = _
    rw [readAll_good parts hwf' _ le_rfl chunks 1 0 0 st0 hgood
      (by intro c hc
          have : c ≤ chunks.sum := List.single_le_sum (by omega) c hc
          omega)]
    rw [htake _ hsum]

/-- Claim C2: seek/tell consistency: for every valid logical offset
`n` (`0 ≤ n ≤` total logical payload size) of a well-formed framed
stream, `seek n` followed by `tell` returns `n` — the cursor satisfies
`tell = current lastbyte - remaining = n` — on both the indexed-seek
path and the forward-discovery path (the statement quantifies over
every reachable `Good` state, hence over both paths); and reading
after `seek n` yields the same bytes as reading from offset `n` of the
equivalent unframed stream. -/
theorem claim_C2 (parts : List (List Nat)) (k cur p : Nat)
    (st : Rp66 Mem) (n : Int) (hwf : WFParts parts)
    (hg : Good parts k cur p st) (h0 : 0 ≤ n)
    (hn : n ≤ (totLen parts : Int)) (hfit : totLen parts ≤ 4294967295) :
    ∃ (st' : Rp66 Mem) (k' cur' : Nat),
      rp66_seek memP parts.length st n = .ok st' ∧
      Good parts k' cur' n.toNat st' ∧
      rp66_tell st' = n ∧
      readAll (2 * parts.length + 1) st' [totLen parts - n.toNat] =
        some (parts.flatten.drop n.toNat) := by
  obtain ⟨st', k', cur', hseek, hgood, hk, htell⟩ :=
    rp66_seek_good parts hwf.2 parts.length k cur p st n hg h0 hn le_rfl
  refine ⟨st', k', cur', hseek, hgood, htell, ?_⟩
  rw [readAll_good parts hwf.2 _ le_rfl [totLen parts - n.toNat] k' cur'
    n.toNat st' hgood (by intro c hc; simp at hc; omega)]
  have hs : ([totLen parts - n.toNat] : List Nat).sum =
      totLen parts - n.toNat := by simp
  rw [hs, min_self]
  congr 1
  refine List.take_of_length_le ?_
  rw [List.length_drop, flatten_length]

/-- Claim C3: lastbyte recurrence: every header appended to the index
by header discovery has `lastbyte = previous entry's lastbyte +
length - 4` (with 0 in place of the previous entry's lastbyte when
the index is empty, i.e. `prevLast [] = 0`), and the cursor's
`remaining` is set to `length - 4` at discovery, with the cursor on
the appended entry. -/
theorem claim_C3 {S : Type} (W : WProto S) (st : Rp66 S) (fp' : S)
    (b : List Nat) (n : Int)
    (h : W.readinto st.fp 4 = (fp', b, n, .LFP_OK)) :
    ∃ head : header,
      read_header W st = .ok ⟨fp', st.markers ++ [head],
        st.markers.length, (head.length : Int) - 4⟩ ∧
      head.lastbyte = prevLast st.markers + ((head.length : Int) - 4) ∧
      prevLast [] = 0 := by
  refine ⟨⟨decode_length b, b.getD 2 0 % 256, b.getD 3 0 % 256,
    ((decode_length b : Int) - headerSize) + prevLast st.markers⟩,
    ?_, ?_, rfl⟩
  · rw [read_header_ok W st fp' b n h]
    rfl
  · show ((decode_length b : Int) - headerSize) + prevLast st.markers = _
    unfold headerSize
    ring

/-- Claim C4: cache-hit advancement: whenever the record after the
cursor's current one is already in the index, advancing (the cursor
variant of `read_header`, reached from `readinto` with
`remaining = 0`) performs no physical header read — over the
instrumented backend the physical-read counter is unchanged — it only
advances the cursor, sets `remaining` to the cached header's length
minus 4, and repositions the wrapped protocol to
`record_count * 4 + previous.lastbyte` with `record_count = cur + 2`
records up to and including the new current one.  (With the
append-only index of C6, each header is therefore discovered at most
once.) -/
theorem claim_C4 :
    (∀ (S : Type) (W : WProto S) (st : Rp66 S),
      st.remaining = 0 → st.cur + 1 < st.markers.length →
      read_header_cur W st = .ok ⟨W.seek st.fp
          (((st.cur : Int) + 2) * headerSize +
            (st.markers.getD st.cur default).lastbyte),
        st.markers, st.cur + 1,
        ((st.markers.getD (st.cur + 1) default).length : Int) -
          headerSize⟩) ∧
    (∀ st : Rp66 (Mem × Nat),
      st.remaining = 0 → st.cur + 1 < st.markers.length →
      ∃ st', read_header_cur cmemP st = .ok st' ∧
        st'.fp.2 = st.fp.2 ∧ st'.markers = st.markers ∧
        st'.cur = st.cur + 1 ∧
        st'.remaining =
          ((st.markers.getD (st.cur + 1) default).length : Int) - 4) := by
  constructor
  · intro S W st _ h
    exact read_header_cur_hit W st h
  · intro st _ h
    rw [read_header_cur_hit cmemP st h]
    exact ⟨_, rfl, rfl, rfl, rfl, rfl⟩

/-- Claim C5: header-read error trichotomy: when the wrapped readinto
returns the incomplete status during header discovery, discovery
throws `protocol_fatal` if the wrapped protocol reports end-of-stream
and `protocol_failed_recovery` otherwise; any other status code throws
`not_implemented`.  In all three cases the result is an error carrying
no new state, so nothing is appended to the index. -/
theorem claim_C5 {S : Type} (W : WProto S) (st : Rp66 S) (fp' : S)
    (b : List Nat) (n : Int) (errc : lfp_status)
    (h : W.readinto st.fp 4 = (fp', b, n, errc)) :
    (errc = .LFP_OKINCOMPLETE → W.eof fp' = true →
      read_header W st = .err .protocol_fatal) ∧
    (errc = .LFP_OKINCOMPLETE → W.eof fp' = false →
      read_header W st = .err .protocol_failed_recovery) ∧
    (errc = .LFP_OTHER → read_header W st = .err .not_implemented) := by
  refine ⟨?_, ?_, ?_⟩
  · intro he hf
    subst he
    unfold read_header
    rw [h]
    dsimp only
    rw [hf]
    rfl
  · intro he hf
    subst he
    unfold read_header
    rw [h]
    dsimp only
    rw [hf]
    rfl
  · intro he
    subst he
    unfold read_header
    rw [h]

/-- Claim C6: index invariant: across every sequence of operations
the index only grows by appending newly discovered headers at the end
(for any wrapped protocol; `tell` does not touch the state at all in
the embedding), and over a well-formed framed stream the `lastbyte`
values across the index are non-decreasing, strictly increasing
between consecutive entries unless the later record has zero
payload. -/
theorem claim_C6 :
    (∀ (S : Type) (W : WProto S) (fuel : Nat) (st : Rp66 S) (len : Int)
       (st' : Rp66 S) (out : List Nat) (n : Int) (s : lfp_status),
      rp66_readinto W fuel st len = .ok (st', out, n, s) →
      ∃ t, st'.markers = st.markers ++ t) ∧
    (∀ (S : Type) (W : WProto S) (fuel : Nat) (st : Rp66 S) (n : Int)
       (st' : Rp66 S),
      rp66_seek W fuel st n = .ok st' →
      ∃ t, st'.markers = st.markers ++ t) ∧
    (∀ (parts : List (List Nat)) (k cur p : Nat) (st : Rp66 Mem),
      Good parts k cur p st →
      (∀ i j, i ≤ j → j < st.markers.length →
        (st.markers.getD i default).lastbyte ≤
          (st.markers.getD j default).lastbyte) ∧
      (∀ i, i + 1 < st.markers.length →
        (parts.getD (i+1) []).length ≠ 0 →
        (st.markers.getD i default).lastbyte <
          (st.markers.getD (i+1) default).lastbyte)) := by
  refine ⟨fun S W fuel st len st' out n s h =>
      rp66_readinto_markers_append W fuel st len st' out n s h,
    fun S W fuel st n st' h =>
      rp66_seek_markers_append W fuel st n st' h,
    ?_⟩
  intro parts k cur p st hg
  have hmk := hg.hmk
  have hkN := hg.hkN
  have hlen : st.markers.length = k := by rw [hmk, expMarkers_length]
  constructor
  · intro i j hij hjk
    rw [hlen] at hjk
    rw [hmk, expMarkers_getD parts (by omega), expMarkers_getD parts hjk]
    show (preLen parts (i+1) : Int) ≤ (preLen parts (j+1) : Int)
    have := preLen_mono parts (show i+1 ≤ j+1 by omega)
    omega
  · intro i hik hpay
    rw [hlen] at hik
    rw [hmk, expMarkers_getD parts (by omega), expMarkers_getD parts hik]
    show (preLen parts (i+1) : Int) < (preLen parts (i+1+1) : Int)
    have := preLen_succ parts (i+1)
    omega

/-- Claim C7: invalid-argument preconditions: `readinto` throws
`invalid_args` if and only if the requested length exceeds the
maximum unsigned 32-bit value, and `seek` throws `invalid_args` if
and only if the target offset is negative — for every wrapped
protocol, fuel and state, since the check precedes any wrapped call or
state change (an `Outcome.err` carries no new state). -/
theorem claim_C7 :
    (∀ (S : Type) (W : WProto S) (fuel : Nat) (st : Rp66 S) (len : Int),
      rp66_readinto W fuel st len = .err .invalid_args ↔
        4294967295 < len) ∧
    (∀ (S : Type) (W : WProto S) (fuel : Nat) (st : Rp66 S) (n : Int),
      rp66_seek W fuel st n = .err .invalid_args ↔ n < 0) := by
  constructor
  · intro S W fuel st len
    constructor
    · intro h
      by_contra hlt
      unfold rp66_readinto at h
      rw [if_neg hlt] at h
      split at h
      · exact Outcome.noConfusion h
      · rename_i e hx
        cases h
        rcases readinto_loop_err_kind W fuel st len [] 0 _ hx with
          h1 | h1 | h1 <;> exact lfp_error.noConfusion h1
      · exact Outcome.noConfusion h
    · intro h
      unfold rp66_readinto
      rw [if_pos h]
  · intro S W fuel st n
    constructor
    · intro h
      by_contra hlt
      unfold rp66_seek at h
      rw [if_neg hlt] at h
      split at h
      · rename_i st1 hx
        dsimp only at h
        split at h
        · exact Outcome.noConfusion h
        · split at h
          · exact Outcome.noConfusion h
          · rename_i e hy
            cases h
            rcases seek_loop_err_kind W fuel _ n _ _ hy with
              h1 | h1 | h1 <;> exact lfp_error.noConfusion h1
          · exact Outcome.noConfusion h
      · rename_i e hx
        cases h
        split at hx
        · rcases read_header_err_kind W st _ hx with
            h1 | h1 | h1 <;> exact lfp_error.noConfusion h1
        · exact Outcome.noConfusion hx
      · exact Outcome.noConfusion h
    · intro h
      unfold rp66_seek
      rw [if_pos h]

/-- Claim C8: empty-record behaviour: on a stream of three
consecutive empty records (each exactly the 4 header bytes 0x04 0x00
0xFF 0x01 with zero payload), after opening the layer, a `readinto`
of any positive requested length (within the 32-bit caller contract
of C7) returns 0 bytes with the incomplete status, traversing all
zero-payload records without error, and `eof` is true afterwards. -/
theorem claim_C8 (len : Int) (hpos : 0 < len) (hfit : len ≤ 4294967295) :
    ∃ st0 st' : Rp66 Mem,
      lfp_rp66_open memP
        (some ⟨[0x04, 0x00, 0xFF, 0x01, 0x04, 0x00, 0xFF, 0x01,
                0x04, 0x00, 0xFF, 0x01], 0⟩) = some st0 ∧
      rp66_readinto memP 7 st0 len = .ok (st', [], 0, .LFP_OKINCOMPLETE) ∧
      rp66_eof memP st' = true := by
  have hfile : ([0x04, 0x00, 0xFF, 0x01, 0x04, 0x00, 0xFF, 0x01,
      0x04, 0x00, 0xFF, 0x01] : List Nat) = mkFile [[], [], []] := rfl
  rw [hfile]
  obtain ⟨st0, hopen, hgood⟩ :=
    lfp_rp66_open_good [[], [], []] (by decide) (by decide)
  obtain ⟨st', k', cur', heq, hgood', hk, heof⟩ :=
    rp66_readinto_good [[], [], []] (by decide) 7 1 0 0 st0 len hgood
      (by omega) hfit (by decide)
  have hm : min len.toNat (totLen [[], [], []] - 0) = 0 := by
    have ht : totLen ([[], [], []] : List (List Nat)) = 0 := rfl
    omega
  rw [hm, List.take_zero, Nat.cast_zero, if_pos hpos] at heq
  refine ⟨st0, st', hopen, heq, heof (by rw [hm]; simpa using hpos)⟩

/-- Claim C9, as stated, is false on the code: the format and major
bytes are checked only by debug assertions, so a complete 4-byte
first header whose format byte is 0x00 (not 0xFF) and major byte 0x00
(not 1) is accepted and `lfp_rp66_open` returns a usable handle
rather than a null indicator. -/
theorem claim_C9_counterexample :
    (lfp_rp66_open memP (some ⟨[0x04, 0x00, 0x00, 0x00], 0⟩)).isSome =
      true := by
  rfl

/-- Claim C9 (amended): `lfp_rp66_open` returns a null indicator when
passed a null wrapped handle, and when construction fails because the
first header read is short (fewer than 4 bytes available); it never
propagates an exception across the open boundary (errors become a
null return).  But when 4 header bytes are read successfully,
construction succeeds regardless of the format and major byte values
— those are validated only by debug assertions. -/
theorem claim_C9 :
    (∀ (S : Type) (W : WProto S), lfp_rp66_open W none = none) ∧
    (∀ data : List Nat, data.length < 4 →
      lfp_rp66_open memP (some ⟨data, 0⟩) = none) ∧
    (∀ data : List Nat, 4 ≤ data.length →
      (lfp_rp66_open memP (some ⟨data, 0⟩)).isSome = true) := by
  refine ⟨fun S W => rfl, ?_, ?_⟩
  · intro data hlt
    unfold lfp_rp66_open
    dsimp only
    have hx : memP.readinto ((⟨⟨data, 0⟩, [], 0, 0⟩ : Rp66 Mem).fp) 4 = _ :=
      Mem.readinto_short ⟨data, 0⟩ 4 (Nat.zero_le _)
        (by show (data.length : Int) - ((0 : Nat) : Int) < 4; omega)
    unfold read_header
    rw [hx]
    dsimp only
    have he : memP.eof (⟨data, data.length⟩ : Mem) = true := by
      show Mem.eof _ = true
      unfold Mem.eof
      exact decide_eq_true le_rfl
    rw [he]
    rfl
  · intro data hge
    unfold lfp_rp66_open
    dsimp only
    rw [read_header_ok memP ⟨⟨data, 0⟩, [], 0, 0⟩ _ _ _
      (Mem.readinto_full ⟨data, 0⟩ 4 (by omega)
        (by show (0 : Nat) + (4 : Int).toNat ≤ data.length; omega))]
    rfl

/-- Claim C10: seek strictly past end-of-stream is fatal: for a
well-formed stream ending exactly at a record boundary over the
in-memory backend (whose readinto at physical end-of-stream returns
the incomplete status with 0 bytes and reports eof), `seek n` with
`n` strictly greater than the total logical payload size throws
`protocol_fatal` — the forward-discovery loop attempts to read a
header at physical end-of-file — rather than clamping or returning a
status. -/
theorem claim_C10 (parts : List (List Nat)) (k cur p : Nat)
    (st : Rp66 Mem) (n : Int) (fuel : Nat) (hwf : WFParts parts)
    (hg : Good parts k cur p st) (hn : (totLen parts : Int) < n)
    (hfuel : parts.length ≤ fuel) :
    rp66_seek memP fuel st n = .err .protocol_fatal :=
  rp66_seek_past_end parts hwf.2 fuel k cur p st n hg hn hfuel

/-! Concrete witnesses. -/

theorem claim_C1_witness :
    WFParts [[1,2,3],[4,5]] ∧
    ([2,0,3] : List Nat).sum = totLen [[1,2,3],[4,5]] ∧
    ((lfp_rp66_open memP (some ⟨mkFile [[1,2,3],[4,5]], 0⟩)).bind
        (fun st0 => readAll (2 * ([[1,2,3],[4,5]] : List (List Nat)).length + 1)
          st0 [totLen [[1,2,3],[4,5]]]) =
      some ([[1,2,3],[4,5]] : List (List Nat)).flatten ∧
    (lfp_rp66_open memP (some ⟨mkFile [[1,2,3],[4,5]], 0⟩)).bind
        (fun st0 => readAll (2 * ([[1,2,3],[4,5]] : List (List Nat)).length + 1)
          st0 [2,0,3]) =
      some ([[1,2,3],[4,5]] : List (List Nat)).flatten) :=
  ⟨by decide, by decide,
   claim_C1 [[1,2,3],[4,5]] [2,0,3] (by decide) (by decide) (by decide)⟩

theorem claim_C2_witness :
    WFParts [[1,2,3],[4,5]] ∧
    ∃ (st' : Rp66 Mem) (k' cur' : Nat),
      rp66_seek memP ([[1,2,3],[4,5]] : List (List Nat)).length
        ⟨⟨mkFile [[1,2,3],[4,5]], 4⟩, [⟨7,255,1,3⟩], 0, 3⟩ 4 = .ok st' ∧
      Good [[1,2,3],[4,5]] k' cur' (4 : Int).toNat st' ∧
      rp66_tell st' = 4 ∧
      readAll (2 * ([[1,2,3],[4,5]] : List (List Nat)).length + 1) st'
        [totLen [[1,2,3],[4,5]] - (4 : Int).toNat] =
        some (([[1,2,3],[4,5]] : List (List Nat)).flatten.drop
          (4 : Int).toNat) :=
  ⟨by decide,
   claim_C2 [[1,2,3],[4,5]] 1 0 0
     ⟨⟨mkFile [[1,2,3],[4,5]], 4⟩, [⟨7,255,1,3⟩], 0, 3⟩ 4 (by decide)
     ⟨by decide, by decide, by decide, by decide, by decide, by decide,
      by decide, by decide, by decide⟩
     (by decide) (by decide) (by decide)⟩

theorem claim_C3_witness :
    memP.readinto ((⟨⟨[12,0,255,1,1,2,3,4,5,6,7,8], 0⟩, [], 0, 0⟩ :
        Rp66 Mem).fp) 4 =
      (⟨[12,0,255,1,1,2,3,4,5,6,7,8], 4⟩, [12,0,255,1], 4, .LFP_OK) ∧
    ∃ head : header,
      read_header memP ⟨⟨[12,0,255,1,1,2,3,4,5,6,7,8], 0⟩, [], 0, 0⟩ =
        .ok ⟨⟨[12,0,255,1,1,2,3,4,5,6,7,8], 4⟩, [] ++ [head],
          ([] : List header).length, (head.length : Int) - 4⟩ ∧
      head.lastbyte = prevLast [] + ((head.length : Int) - 4) ∧
      prevLast [] = 0 :=
  ⟨rfl, claim_C3 memP ⟨⟨[12,0,255,1,1,2,3,4,5,6,7,8], 0⟩, [], 0, 0⟩
    ⟨[12,0,255,1,1,2,3,4,5,6,7,8], 4⟩ [12,0,255,1] 4 rfl⟩

theorem claim_C4_witness :
    read_header_cur memP
      ⟨⟨mkFile [[1,2,3],[4,5]], 4⟩, [⟨7,255,1,3⟩,⟨6,255,1,5⟩], 0, 0⟩ =
      .ok ⟨⟨mkFile [[1,2,3],[4,5]], 11⟩, [⟨7,255,1,3⟩,⟨6,255,1,5⟩], 1,
        ((6 : Nat) : Int) - headerSize⟩ ∧
    ∃ st', read_header_cur cmemP
        ⟨(⟨[], 0⟩, 0), [⟨12,255,1,8⟩, ⟨6,255,1,10⟩], 0, 0⟩ = .ok st' ∧
      st'.fp.2 = 0 ∧ st'.markers = [⟨12,255,1,8⟩, ⟨6,255,1,10⟩] ∧
      st'.cur = 0 + 1 ∧ st'.remaining = ((6 : Nat) : Int) - 4 :=
  ⟨claim_C4.1 Mem memP
     ⟨⟨mkFile [[1,2,3],[4,5]], 4⟩, [⟨7,255,1,3⟩,⟨6,255,1,5⟩], 0, 0⟩
     rfl (by decide),
   claim_C4.2 ⟨(⟨[], 0⟩, 0), [⟨12,255,1,8⟩, ⟨6,255,1,10⟩], 0, 0⟩
     rfl (by decide)⟩

/-- A wrapped protocol that is short on bytes and at end-of-stream. -/
def wShortEof : WProto Unit :=
  ⟨fun s _ => (s, [], 0, .LFP_OKINCOMPLETE), fun s _ => s, fun _ => true⟩

/-- A wrapped protocol that is short on bytes but merely blocked. -/
def wShortBlocked : WProto Unit :=
  ⟨fun s _ => (s, [], 0, .LFP_OKINCOMPLETE), fun s _ => s, fun _ => false⟩

/-- A wrapped protocol returning an unhandled status code. -/
def wOtherStatus : WProto Unit :=
  ⟨fun s _ => (s, [], 0, .LFP_OTHER), fun s _ => s, fun _ => false⟩

theorem claim_C5_witness :
    read_header wShortEof ⟨(), [], 0, 0⟩ = .err .protocol_fatal ∧
    read_header wShortBlocked ⟨(), [], 0, 0⟩ =
      .err .protocol_failed_recovery ∧
    read_header wOtherStatus ⟨(), [], 0, 0⟩ = .err .not_implemented :=
  ⟨(claim_C5 wShortEof ⟨(), [], 0, 0⟩ () [] 0 .LFP_OKINCOMPLETE rfl).1
      rfl rfl,
   (claim_C5 wShortBlocked ⟨(), [], 0, 0⟩ () [] 0 .LFP_OKINCOMPLETE rfl).2.1
      rfl rfl,
   (claim_C5 wOtherStatus ⟨(), [], 0, 0⟩ () [] 0 .LFP_OTHER rfl).2.2 rfl⟩

theorem claim_C6_witness :
    (∃ t, ([⟨7,255,1,3⟩] : List header) =
      ([⟨7,255,1,3⟩] : List header) ++ t) ∧
    (∃ t, ([⟨7,255,1,3⟩,⟨6,255,1,5⟩] : List header) =
      ([⟨7,255,1,3⟩] : List header) ++ t) ∧
    ((∀ i j, i ≤ j →
        j < ([⟨7,255,1,3⟩] : List header).length →
        (([⟨7,255,1,3⟩] : List header).getD i default).lastbyte ≤
          (([⟨7,255,1,3⟩] : List header).getD j default).lastbyte) ∧
      (∀ i, i + 1 < ([⟨7,255,1,3⟩] : List header).length →
        (([[1,2,3],[4,5]] : List (List Nat)).getD (i+1) []).length ≠ 0 →
        (([⟨7,255,1,3⟩] : List header).getD i default).lastbyte <
          (([⟨7,255,1,3⟩] : List header).getD (i+1) default).lastbyte)) :=
  ⟨claim_C6.1 Mem memP 5 ⟨⟨mkFile [[1,2,3],[4,5]], 4⟩, [⟨7,255,1,3⟩], 0, 3⟩
     2 ⟨⟨mkFile [[1,2,3],[4,5]], 6⟩, [⟨7,255,1,3⟩], 0, 1⟩ [1,2] 2 .LFP_OK
     rfl,
   claim_C6.2.1 Mem memP 2 ⟨⟨mkFile [[1,2,3],[4,5]], 4⟩, [⟨7,255,1,3⟩], 0, 3⟩
     4 ⟨⟨mkFile [[1,2,3],[4,5]], 12⟩, [⟨7,255,1,3⟩,⟨6,255,1,5⟩], 1, 1⟩ rfl,
   claim_C6.2.2 [[1,2,3],[4,5]] 1 0 0
     ⟨⟨mkFile [[1,2,3],[4,5]], 4⟩, [⟨7,255,1,3⟩], 0, 3⟩
     ⟨by decide, by decide, by decide, by decide, by decide, by decide,
      by decide, by decide, by decide⟩⟩

theorem claim_C7_witness :
    rp66_readinto memP 1
      ⟨⟨mkFile [[1,2,3],[4,5]], 4⟩, [⟨7,255,1,3⟩], 0, 3⟩ 4294967296 =
      .err .invalid_args ∧
    rp66_seek memP 1
      ⟨⟨mkFile [[1,2,3],[4,5]], 4⟩, [⟨7,255,1,3⟩], 0, 3⟩ (-1) =
      .err .invalid_args :=
  ⟨(claim_C7.1 Mem memP 1
      ⟨⟨mkFile [[1,2,3],[4,5]], 4⟩, [⟨7,255,1,3⟩], 0, 3⟩ 4294967296).mpr
      (by decide),
   (claim_C7.2 Mem memP 1
      ⟨⟨mkFile [[1,2,3],[4,5]], 4⟩, [⟨7,255,1,3⟩], 0, 3⟩ (-1)).mpr
      (by decide)⟩

theorem claim_C8_witness :
    ∃ st0 st' : Rp66 Mem,
      lfp_rp66_open memP
        (some ⟨[0x04, 0x00, 0xFF, 0x01, 0x04, 0x00, 0xFF, 0x01,
                0x04, 0x00, 0xFF, 0x01], 0⟩) = some st0 ∧
      rp66_readinto memP 7 st0 5 = .ok (st', [], 0, .LFP_OKINCOMPLETE) ∧
      rp66_eof memP st' = true :=
  claim_C8 5 (by decide) (by decide)

theorem claim_C9_witness :
    lfp_rp66_open memP (none : Option Mem) = none ∧
    lfp_rp66_open memP (some ⟨[1, 2], 0⟩) = none ∧
    (lfp_rp66_open memP (some ⟨[9, 9, 9, 9, 9], 0⟩)).isSome = true :=
  ⟨claim_C9.1 Mem memP, claim_C9.2.1 [1, 2] (by decide),
   claim_C9.2.2 [9, 9, 9, 9, 9] (by decide)⟩

theorem claim_C10_witness :
    rp66_seek memP 2
      ⟨⟨mkFile [[1,2,3],[4,5]], 4⟩, [⟨7,255,1,3⟩], 0, 3⟩ 6 =
      .err .protocol_fatal :=
  claim_C10 [[1,2,3],[4,5]] 1 0 0
    ⟨⟨mkFile [[1,2,3],[4,5]], 4⟩, [⟨7,255,1,3⟩], 0, 3⟩ 6 2 (by decide)
    ⟨by decide, by decide, by decide, by decide, by decide, by decide,
     by decide, by decide, by decide⟩
    (by decide) (by decide)

end LFP
